import Mathlib

/-!
Verification of the bit-vector core of the `jerky` (sucds-derived) library.

The Rust sources under `src/` are shallowly embedded: machine words (`usize`
on a 64-bit target) become `Nat` values kept below `2 ^ 64`, word buffers
become `List Nat`, and fallible operations return `Option`.  Definitions
follow the Rust code line by line; the files `broadword.rs`, `utils.rs` and
`rank9sel/inner.rs` are absent from the sources, so the handful of functions
they provide are modelled from the specification (each such definition is
marked `Modelled from the spec:`).
-/

namespace Jerky

/-- Number of bits in a machine word (`usize` on a 64-bit target). -/
def WORD_LEN : Nat := 64

/-- Fuel-driven population count; the fuel argument only makes the recursion
structural so that the kernel can evaluate it. -/
def popcountF : Nat → Nat → Nat
  | 0, _ => 0
  | fuel + 1, n => if n = 0 then 0 else popcountF fuel (n / 2) + n % 2

/-- Modelled from the spec: `broadword.rs` is absent from the sources.  Per
spec section 4.1, `popcount(w)` is the population count of a word. -/
def popcount (n : Nat) : Nat :=
  popcountF n n

/-- Fuel-driven in-word select; the fuel argument only makes the recursion
structural so that the kernel can evaluate it. -/
def selectInWordF : Nat → Nat → Nat → Option Nat
  | 0, _, _ => none
  | fuel + 1, w, k =>
    if w = 0 then none
    else if w % 2 = 1 then
      if k = 0 then some 0 else (selectInWordF fuel (w / 2) (k - 1)).map (· + 1)
    else (selectInWordF fuel (w / 2) k).map (· + 1)

/-- Modelled from the spec: `broadword.rs` is absent from the sources.  Per
spec section 4.1, `select_in_word(w, k)` is the position of the `(k+1)`-th
set bit of `w`, undefined (here: `none`) when `k ≥ popcount w`. -/
def select_in_word (w k : Nat) : Option Nat :=
  selectInWordF w w k

/-- Fuel-driven bit length (number of binary digits); structural for kernel
evaluation. -/
def bitLenF : Nat → Nat → Nat
  | 0, _ => 0
  | fuel + 1, n => if n = 0 then 0 else bitLenF fuel (n / 2) + 1

/-- Number of binary digits of `x` (0 for 0). -/
def bitLen (x : Nat) : Nat :=
  bitLenF x x

/-- Modelled from the spec: `utils.rs` is absent from the sources.  Per the
spec, `needed_bits(x)` is the number of bits needed to represent `x`, with
`needed_bits(0) = 1`. -/
def needed_bits (x : Nat) : Nat :=
  if x = 0 then 1 else bitLen x

/-- Modelled from the spec: `utils.rs` is absent from the sources.
`ceiled_divide(a, b)` is `⌈a/b⌉`. -/
def ceiled_divide (a b : Nat) : Nat :=
  (a + b - 1) / b

/-- Word `j` of a word buffer (0 when out of range; all in-range reads proved
below stay within bounds, matching the panic-free Rust executions). -/
def wordAt (ws : List Nat) (j : Nat) : Nat :=
  ws.getD j 0

/-- Bit `p` of a word buffer, little-endian within each 64-bit word:
bit `p` is bit `p % 64` of word `p / 64` (spec section 3). -/
def bitAtWords (ws : List Nat) (p : Nat) : Bool :=
  (wordAt ws (p / 64)).testBit (p % 64)

/-- Number of set bits among positions `[0, i)` of a word buffer. -/
def countBelow (ws : List Nat) (i : Nat) : Nat :=
  (List.range i).countP (fun p => bitAtWords ws p)

/-! ### popcount lemmas -/

theorem popcountF_congr :
    ∀ f g n : Nat, n ≤ f → n ≤ g → popcountF f n = popcountF g n := by
  intro f
  induction f with
  | zero =>
    intro g n hf hg
    have hn : n = 0 := by omega
    subst hn
    cases g <;> simp [popcountF]
  | succ f ih =>
    intro g n hf hg
    cases g with
    | zero =>
      have hn : n = 0 := by omega
      subst hn
      simp [popcountF]
    | succ g =>
      by_cases hn : n = 0
      · subst hn; simp [popcountF]
      · simp only [popcountF, hn, if_false]
        rw [ih g (n / 2) (by omega) (by omega)]

theorem popcount_zero : popcount 0 = 0 := rfl

theorem popcount_div2 (n : Nat) : popcount n = popcount (n / 2) + n % 2 := by
  by_cases h : n = 0
  · subst h; simp [popcount_zero]
  · cases hn : n with
    | zero => exact absurd hn h
    | succ m =>
      show popcountF (m + 1) (m + 1) = popcount ((m + 1) / 2) + (m + 1) % 2
      simp only [popcountF, Nat.succ_ne_zero, if_false]
      rw [popcountF_congr m ((m + 1) / 2) ((m + 1) / 2) (by omega) (by omega)]
      rfl

theorem popcount_two_mul_add (m r : Nat) (hr : r < 2) :
    popcount (2 * m + r) = popcount m + r := by
  rw [popcount_div2 (2 * m + r)]
  have h1 : (2 * m + r) / 2 = m := by omega
  have h2 : (2 * m + r) % 2 = r := by omega
  rw [h1, h2]

theorem mod_two_mul_of_lt (x r m : Nat) (hm : 0 < m) (hr : r < 2) :
    (2 * x + r) % (2 * m) = 2 * (x % m) + r := by
  have h1 : 2 * x % (2 * m) = 2 * (x % m) := Nat.mul_mod_mul_left 2 x m
  have h2 : 2 * (x % m) + r < 2 * m := by
    have := Nat.mod_lt x hm; omega
  calc (2 * x + r) % (2 * m)
      = (2 * x % (2 * m) + r % (2 * m)) % (2 * m) := by rw [Nat.add_mod]
    _ = (2 * (x % m) + r) % (2 * m) := by
        rw [h1, Nat.mod_eq_of_lt (lt_of_lt_of_le hr (by omega))]
    _ = 2 * (x % m) + r := Nat.mod_eq_of_lt h2

theorem mod_pow_succ_two (w p : Nat) :
    w % 2 ^ (p + 1) = 2 * (w / 2 % 2 ^ p) + w % 2 := by
  have h1 : w = 2 * (w / 2) + w % 2 := by omega
  have h2 : (2 : Nat) ^ (p + 1) = 2 * 2 ^ p := by
    rw [pow_succ]; ring
  conv_lhs => rw [h1, h2]
  exact mod_two_mul_of_lt (w / 2) (w % 2) (2 ^ p) (by positivity) (by omega)

theorem popcount_add_pow_mul (k : Nat) :
    ∀ a b : Nat, a < 2 ^ k → popcount (a + 2 ^ k * b) = popcount a + popcount b := by
  induction k with
  | zero =>
    intro a b ha
    interval_cases a
    simp [popcount_zero]
  | succ k ih =>
    intro a b ha
    have key : a + 2 ^ (k + 1) * b = 2 * (a / 2 + 2 ^ k * b) + a % 2 := by
      have := Nat.div_add_mod a 2
      ring_nf
      omega
    rw [key, popcount_two_mul_add _ _ (Nat.mod_lt _ (by omega)),
      ih (a / 2) b (by omega), popcount_div2 a]
    omega

theorem popcount_mod_two_pow (w m : Nat) :
    popcount (w % 2 ^ m) = (List.range m).countP (fun i => w.testBit i) := by
  induction m with
  | zero => simp [Nat.mod_one, popcount_zero]
  | succ m ih =>
    rw [Nat.mod_pow_succ, popcount_add_pow_mul m _ _ (Nat.mod_lt _ (by positivity)),
      ih, List.range_succ, List.countP_append]
    have hbit : w.testBit m = decide (w / 2 ^ m % 2 = 1) := Nat.testBit_to_div_mod
    have h2 : w / 2 ^ m % 2 = 0 ∨ w / 2 ^ m % 2 = 1 := by omega
    simp only [List.countP_cons, List.countP_nil]
    rcases h2 with h | h <;>
      simp [h, hbit, popcount_zero, popcount_div2 1]

theorem popcount_eq_countP (w : Nat) (hw : w < 2 ^ 64) :
    popcount w = (List.range 64).countP (fun i => w.testBit i) := by
  rw [← popcount_mod_two_pow, Nat.mod_eq_of_lt hw]

theorem popcount_mul_two_pow (a s : Nat) : popcount (2 ^ s * a) = popcount a := by
  induction s with
  | zero => simp
  | succ s ih =>
    have key : 2 ^ (s + 1) * a = 2 * (2 ^ s * a) + 0 := by ring
    rw [key, popcount_two_mul_add _ _ (by omega), ih]
    omega

/-! ### select_in_word lemmas -/

theorem selectInWordF_congr :
    ∀ f g w k : Nat, w ≤ f → w ≤ g → selectInWordF f w k = selectInWordF g w k := by
  intro f
  induction f with
  | zero =>
    intro g w k hf hg
    have hw : w = 0 := by omega
    subst hw
    cases g <;> simp [selectInWordF]
  | succ f ih =>
    intro g w k hf hg
    cases g with
    | zero =>
      have hw : w = 0 := by omega
      subst hw
      simp [selectInWordF]
    | succ g =>
      by_cases hw : w = 0
      · subst hw; simp [selectInWordF]
      · simp only [selectInWordF, hw, if_false]
        rw [ih g (w / 2) (k - 1) (by omega) (by omega),
          ih g (w / 2) k (by omega) (by omega)]

theorem select_in_word_zero (k : Nat) : select_in_word 0 k = none := rfl

theorem select_in_word_unfold (w k : Nat) (hw : w ≠ 0) :
    select_in_word w k =
      if w % 2 = 1 then
        if k = 0 then some 0 else (select_in_word (w / 2) (k - 1)).map (· + 1)
      else (select_in_word (w / 2) k).map (· + 1) := by
  cases hn : w with
  | zero => exact absurd hn hw
  | succ m =>
    show selectInWordF (m + 1) (m + 1) k = _
    simp only [selectInWordF, Nat.succ_ne_zero, if_false]
    rw [selectInWordF_congr m ((m + 1) / 2) ((m + 1) / 2) (k - 1) (by omega) (by omega),
      selectInWordF_congr m ((m + 1) / 2) ((m + 1) / 2) k (by omega) (by omega)]
    rfl

theorem select_in_word_spec :
    ∀ w k : Nat, k < popcount w →
      ∃ p, select_in_word w k = some p ∧ w.testBit p = true ∧
        popcount (w % 2 ^ p) = k := by
  intro w
  induction w using Nat.strong_induction_on with
  | _ w ih =>
    intro k hk
    have hw : w ≠ 0 := by
      intro h; rw [h, popcount_zero] at hk; omega
    have hdiv : w / 2 < w := Nat.div_lt_self (Nat.pos_of_ne_zero hw) (by omega)
    by_cases hodd : w % 2 = 1
    · by_cases hk0 : k = 0
      · refine ⟨0, ?_, ?_, ?_⟩
        · rw [select_in_word_unfold w k hw]; simp [hodd, hk0]
        · simp [Nat.testBit_zero]; omega
        · simp [hk0, popcount_zero, Nat.mod_one]
      · have hk' : k - 1 < popcount (w / 2) := by
          rw [popcount_div2 w, hodd] at hk; omega
        obtain ⟨p, hp, hbit, hcnt⟩ := ih (w / 2) hdiv (k - 1) hk'
        refine ⟨p + 1, ?_, ?_, ?_⟩
        · rw [select_in_word_unfold w k hw]; simp [hodd, hk0, hp]
        · rw [Nat.testBit_add_one]; exact hbit
        · rw [mod_pow_succ_two, hodd, popcount_two_mul_add _ _ (by omega), hcnt]
          omega
    · have hodd0 : w % 2 = 0 := by omega
      have hk' : k < popcount (w / 2) := by
        rw [popcount_div2 w, hodd0] at hk; omega
      obtain ⟨p, hp, hbit, hcnt⟩ := ih (w / 2) hdiv k hk'
      refine ⟨p + 1, ?_, ?_, ?_⟩
      · rw [select_in_word_unfold w k hw]; simp [hodd0, hp]
      · rw [Nat.testBit_add_one]; exact hbit
      · rw [mod_pow_succ_two, hodd0, popcount_two_mul_add _ _ (by omega), hcnt]
        omega

/-! ### Word buffer lemmas -/

theorem wordAt_lt (ws : List Nat) (hlt : ∀ w ∈ ws, w < 2 ^ 64) (j : Nat) :
    wordAt ws j < 2 ^ 64 := by
  unfold wordAt
  rcases Nat.lt_or_ge j ws.length with h | h
  · rw [List.getD_eq_getElem?_getD, List.getElem?_eq_getElem h]
    exact hlt _ (List.getElem_mem h)
  · rw [List.getD_eq_getElem?_getD, List.getElem?_eq_none h]
    simp [Nat.pos_pow_of_pos]

theorem wordAt_of_ge_length (ws : List Nat) (j : Nat) (h : ws.length ≤ j) :
    wordAt ws j = 0 := by
  unfold wordAt
  rw [List.getD_eq_getElem?_getD, List.getElem?_eq_none h]
  rfl

theorem bitAtWords_of_ge (ws : List Nat) (p : Nat) (h : 64 * ws.length ≤ p) :
    bitAtWords ws p = false := by
  unfold bitAtWords
  rw [wordAt_of_ge_length ws (p / 64) (by omega)]
  exact Nat.zero_testBit _

theorem bitAtWords_eq_testBit (ws : List Nat) (q t : Nat) (ht : t < 64) :
    bitAtWords ws (64 * q + t) = (wordAt ws q).testBit t := by
  unfold bitAtWords
  have h1 : (64 * q + t) / 64 = q := by omega
  have h2 : (64 * q + t) % 64 = t := by omega
  rw [h1, h2]

theorem countBelow_add (ws : List Nat) (a r : Nat) :
    countBelow ws (a + r) =
      countBelow ws a + (List.range r).countP (fun t => bitAtWords ws (a + t)) := by
  unfold countBelow
  rw [List.range_add, List.countP_append, List.countP_map]
  rfl

theorem countBelow_window (ws : List Nat) (q r : Nat) (hr : r ≤ 64) :
    (List.range r).countP (fun t => bitAtWords ws (64 * q + t)) =
      (List.range r).countP (fun t => (wordAt ws q).testBit t) := by
  apply List.countP_congr
  intro t htmem
  have ht : t < r := List.mem_range.mp htmem
  rw [bitAtWords_eq_testBit ws q t (by omega)]

theorem countBelow_full_words (ws : List Nat) (hlt : ∀ w ∈ ws, w < 2 ^ 64) :
    ∀ q : Nat, countBelow ws (64 * q) = ((ws.take q).map popcount).sum := by
  intro q
  induction q with
  | zero => simp [countBelow]
  | succ q ih =>
    have hstep : 64 * (q + 1) = 64 * q + 64 := by ring
    rw [hstep, countBelow_add, countBelow_window ws q 64 (by omega), ih,
      ← popcount_eq_countP _ (wordAt_lt ws hlt q)]
    rcases Nat.lt_or_ge q ws.length with h | h
    · have hw : wordAt ws q = ws[q] := by
        unfold wordAt
        rw [List.getD_eq_getElem?_getD, List.getElem?_eq_getElem h]
        rfl
      rw [hw, List.take_succ, List.getElem?_eq_getElem h, List.map_append,
        List.sum_append]
      simp
    · rw [List.take_succ, List.getElem?_eq_none h]
      rw [wordAt_of_ge_length ws q h]
      simp [popcount_zero]

theorem countBelow_split (ws : List Nat) (hlt : ∀ w ∈ ws, w < 2 ^ 64)
    (q r : Nat) (hr : r ≤ 64) :
    countBelow ws (64 * q + r) =
      ((ws.take q).map popcount).sum +
        (List.range r).countP (fun t => (wordAt ws q).testBit t) := by
  rw [countBelow_add, countBelow_window ws q r hr, countBelow_full_words ws hlt q]

theorem countBelow_le (ws : List Nat) (i : Nat) : countBelow ws i ≤ i := by
  unfold countBelow
  calc (List.range i).countP (fun p => bitAtWords ws p) ≤ (List.range i).length :=
        List.countP_le_length _
    _ = i := List.length_range i

theorem countBelow_succ (ws : List Nat) (i : Nat) :
    countBelow ws (i + 1) = countBelow ws i + if bitAtWords ws i then 1 else 0 := by
  unfold countBelow
  rw [List.range_succ, List.countP_append, List.countP_cons, List.countP_nil]
  simp

/-! ### BitVectorData and its read-only operations (`bit_vector.rs`) -/

/-- Immutable bit vector data without auxiliary indexes
(`BitVectorData` in `bit_vector.rs`): machine words plus a logical
bit length. -/
structure BitVectorData where
  words : List Nat
  len : Nat
deriving Repr, DecidableEq

/-- Well-formedness from the spec and the Rust types: the buffer holds at
least `⌈len/64⌉` words and every word fits in a 64-bit machine word. -/
def Wf (d : BitVectorData) : Prop :=
  (d.len + 63) / 64 ≤ d.words.length ∧ ∀ w ∈ d.words, w < 2 ^ 64

/-- All stored bits at logical positions `≥ len` are zero (always true for
builder-produced data; `from_bytes` data may violate it). -/
def TailZero (d : BitVectorData) : Prop :=
  ∀ p, p < 64 * d.words.length → d.len ≤ p → bitAtWords d.words p = false

instance (d : BitVectorData) : Decidable (Wf d) := by
  unfold Wf; infer_instance

instance (d : BitVectorData) : Decidable (TailZero d) := by
  unfold TailZero; infer_instance

/-- Bit `p` of the data (mathematical view used by the specifications). -/
def BitVectorData.bitAt (d : BitVectorData) (p : Nat) : Bool :=
  bitAtWords d.words p

/-- Bounds-checked single-bit read (`impl Access for BitVectorData`). -/
def BitVectorData.access (d : BitVectorData) (pos : Nat) : Option Bool :=
  if pos < d.len then
    some (decide ((wordAt d.words (pos / 64) >>> (pos % 64)) &&& 1 = 1))
  else none

theorem shiftRight_and_one (w s : Nat) :
    decide ((w >>> s) &&& 1 = 1) = w.testBit s := by
  rw [Nat.and_one_is_mod, Nat.shiftRight_eq_div_pow, Nat.testBit_to_div_mod]

theorem access_eq_bitAt (d : BitVectorData) (pos : Nat) (h : pos < d.len) :
    d.access pos = some (d.bitAt pos) := by
  unfold BitVectorData.access BitVectorData.bitAt bitAtWords
  rw [if_pos h, shiftRight_and_one]

/-- Returns `len` bits starting at position `pos`
(`BitVectorData::get_bits`). -/
def BitVectorData.get_bits (d : BitVectorData) (pos len : Nat) : Option Nat :=
  if 64 < len ∨ d.len < pos + len then none
  else if len = 0 then some 0
  else
    let block := pos / 64
    let shift := pos % 64
    let mask := if len < 64 then (1 <<< len) - 1 else 2 ^ 64 - 1
    some (if shift + len ≤ 64 then (wordAt d.words block >>> shift) &&& mask
      else (wordAt d.words block >>> shift) |||
        (((wordAt d.words (block + 1) <<< (64 - shift)) % 2 ^ 64) &&& mask))

/-- Counts set bits in the data (`NoIndex::num_ones`): the raw sum of word
popcounts over the whole buffer, with no masking of the tail. -/
def num_ones (d : BitVectorData) : Nat :=
  (d.words.map popcount).sum

/-- Counts unset bits (`BitVectorIndex::num_zeros` default method). -/
def num_zeros (d : BitVectorData) : Nat :=
  d.len - num_ones d

/-- Rank query for ones (`NoIndex::rank1`): full words below `pos` plus a
masked tail word. -/
def rank1 (d : BitVectorData) (pos : Nat) : Option Nat :=
  if d.len < pos then none
  else
    let wpos := pos / 64
    let left := pos % 64
    let base := ((d.words.take wpos).map popcount).sum
    if left ≠ 0 then
      some (base + popcount ((wordAt d.words wpos <<< (64 - left)) % 2 ^ 64))
    else some base

/-- Rank query for zeros (`BitVectorIndex::rank0` default method):
`pos - rank1(pos)`. -/
def rank0 (d : BitVectorData) (pos : Nat) : Option Nat :=
  (rank1 d pos).map (fun r => pos - r)

theorem shl_mod_word (w s : Nat) (hs : s ≤ 64) :
    (w <<< s) % 2 ^ 64 = (w % 2 ^ (64 - s)) * 2 ^ s := by
  have hsplit : (2 : Nat) ^ 64 = 2 ^ (64 - s) * 2 ^ s := by
    rw [← pow_add]
    congr 1
    omega
  rw [Nat.shiftLeft_eq, hsplit, Nat.mul_mod_mul_right]

theorem popcount_shl_mod (w s : Nat) (hs : s ≤ 64) :
    popcount ((w <<< s) % 2 ^ 64) =
      (List.range (64 - s)).countP (fun i => w.testBit i) := by
  rw [shl_mod_word w s hs, Nat.mul_comm, popcount_mul_two_pow, popcount_mod_two_pow]

theorem rank1_eq_countBelow (d : BitVectorData) (hlt : ∀ w ∈ d.words, w < 2 ^ 64)
    (i : Nat) (hi : i ≤ d.len) :
    rank1 d i = some (countBelow d.words i) := by
  unfold rank1
  rw [if_neg (by omega)]
  have hsplit : 64 * (i / 64) + i % 64 = i := by omega
  have hcb := countBelow_split d.words hlt (i / 64) (i % 64) (by omega)
  rw [hsplit] at hcb
  by_cases hleft : i % 64 = 0
  · simp only [hleft, ne_eq, not_true_eq_false, if_false]
    rw [hcb, hleft]
    simp
  · simp only [ne_eq, hleft, not_false_eq_true, if_true]
    rw [hcb, popcount_shl_mod _ _ (by omega)]
    have h64 : 64 - (64 - i % 64) = i % 64 := by omega
    rw [h64]

theorem rank1_none_of_gt (d : BitVectorData) (i : Nat) (h : d.len < i) :
    rank1 d i = none := by
  unfold rank1
  rw [if_pos h]

/-! ### num_ones against the specification formula (claim C6) -/

theorem num_ones_eq_countBelow_total (d : BitVectorData)
    (hlt : ∀ w ∈ d.words, w < 2 ^ 64) :
    num_ones d = countBelow d.words (64 * d.words.length) := by
  rw [countBelow_full_words d.words hlt d.words.length, List.take_length]
  rfl

theorem countBelow_tail_const (d : BitVectorData) (htz : TailZero d) :
    ∀ m, d.len + m ≤ 64 * d.words.length →
      countBelow d.words (d.len + m) = countBelow d.words d.len := by
  intro m
  induction m with
  | zero => intro _; rfl
  | succ m ih =>
    intro hm
    have hsucc : d.len + (m + 1) = (d.len + m) + 1 := by omega
    rw [hsucc, countBelow_succ, htz (d.len + m) (by omega) (by omega), ih (by omega)]
    simp

theorem num_ones_eq_countBelow_len (d : BitVectorData) (hWf : Wf d)
    (htz : TailZero d) : num_ones d = countBelow d.words d.len := by
  rw [num_ones_eq_countBelow_total d hWf.2]
  obtain ⟨hlen, hlt⟩ := hWf
  have hle : d.len ≤ 64 * d.words.length := by omega
  have h := countBelow_tail_const d htz (64 * d.words.length - d.len) (by omega)
  rw [show d.len + (64 * d.words.length - d.len) = 64 * d.words.length by omega] at h
  exact h

/-- Specification-side formula of claim C6 (stated from the spec's words, for
comparison with the source's `num_ones`): the sum of word popcounts over
`words[0..⌈len/64⌉]` with bits at positions `≥ len` masked to zero. -/
def specMaskedNumOnes (d : BitVectorData) : Nat :=
  ((List.range ((d.len + 63) / 64)).map
    (fun j => popcount (wordAt d.words j % 2 ^ (d.len - 64 * j)))).sum

theorem sum_range_wordAt (ws : List Nat) :
    ∀ q, q ≤ ws.length →
      ((List.range q).map (fun j => popcount (wordAt ws j))).sum =
        ((ws.take q).map popcount).sum := by
  intro q
  induction q with
  | zero => intro _; simp
  | succ q ih =>
    intro hq
    have hqlt : q < ws.length := by omega
    have hw : wordAt ws q = ws[q] := by
      unfold wordAt
      rw [List.getD_eq_getElem?_getD, List.getElem?_eq_getElem hqlt]
      rfl
    rw [List.range_succ, List.map_append, List.sum_append,
      List.take_succ, List.getElem?_eq_getElem hqlt, List.map_append, List.sum_append,
      ih (by omega)]
    simp [hw]

theorem specMaskedNumOnes_eq_countBelow (d : BitVectorData) (hWf : Wf d) :
    specMaskedNumOnes d = countBelow d.words d.len := by
  obtain ⟨hlen, hlt⟩ := hWf
  unfold specMaskedNumOnes
  have hmodeq : ∀ q, q < d.len / 64 →
      popcount (wordAt d.words q % 2 ^ (d.len - 64 * q)) =
        popcount (wordAt d.words q) := by
    intro q hq
    have h64 : 64 ≤ d.len - 64 * q := by omega
    have : wordAt d.words q < 2 ^ (d.len - 64 * q) :=
      lt_of_lt_of_le (wordAt_lt d.words hlt q) (Nat.pow_le_pow_right (by omega) h64)
    rw [Nat.mod_eq_of_lt this]
  by_cases hr : d.len % 64 = 0
  · have hceil : (d.len + 63) / 64 = d.len / 64 := by omega
    have hsplit : 64 * (d.len / 64) + 0 = d.len := by omega
    rw [hceil]
    rw [List.map_congr_left (fun j hj => hmodeq j (List.mem_range.mp hj)),
      sum_range_wordAt d.words (d.len / 64) (by omega)]
    conv_rhs => rw [← hsplit]
    rw [countBelow_split d.words hlt (d.len / 64) 0 (by omega)]
    simp
  · have hceil : (d.len + 63) / 64 = d.len / 64 + 1 := by omega
    have hsplit : 64 * (d.len / 64) + d.len % 64 = d.len := by omega
    rw [hceil, List.range_succ, List.map_append, List.sum_append,
      List.map_congr_left (fun j hj => hmodeq j (List.mem_range.mp hj)),
      sum_range_wordAt d.words (d.len / 64) (by omega)]
    conv_rhs => rw [← hsplit]
    rw [countBelow_split d.words hlt (d.len / 64) (d.len % 64) (by omega)]
    have hrw : d.len - 64 * (d.len / 64) = d.len % 64 := by omega
    simp [hrw, popcount_mod_two_pow]

/-! ### Claim C1: NoIndex rank correctness -/

/-- C1: for every well-formed `BitVectorData` and every position `i`,
`NoIndex::rank1` returns `some` exactly when `i ≤ len`; there it counts the
set bits among positions `[0, i)`, and `rank1(i) + rank0(i) = i` with both
queries returning `some`. -/
theorem C1_noindex_rank (d : BitVectorData) (hWf : Wf d) (i : Nat) :
    (rank1 d i = none ↔ d.len < i) ∧
    (i ≤ d.len →
      rank1 d i = some (countBelow d.words i) ∧
      rank0 d i = some (i - countBelow d.words i) ∧
      countBelow d.words i + (i - countBelow d.words i) = i) := by
  constructor
  · constructor
    · intro h
      by_contra hle
      rw [rank1_eq_countBelow d hWf.2 i (by omega)] at h
      exact Option.noConfusion h
    · exact rank1_none_of_gt d i
  · intro hi
    have h1 := rank1_eq_countBelow d hWf.2 i hi
    refine ⟨h1, ?_, ?_⟩
    · unfold rank0
      rw [h1]
      rfl
    · have := countBelow_le d.words i
      omega

/-- C1 witness: the bit sequence `1001` at `i = 4`. -/
theorem C1_noindex_rank_witness :
    rank1 ⟨[9], 4⟩ 4 = some 2 ∧ rank0 ⟨[9], 4⟩ 4 = some 2 := by
  have h := (C1_noindex_rank ⟨[9], 4⟩ (by decide) 4).2 (by decide)
  exact ⟨h.1.trans (by decide), h.2.1.trans (by decide)⟩

/-! ### Claim C6: num_ones and the masked word sum -/

/-- C6 counterexample: the data `{words := [3], len := 1}` satisfies the
invariant (one word suffices for one bit), yet `NoIndex::num_ones` counts
the unspecified tail bit: it returns 2 while the spec's masked sum is 1. -/
theorem C6_counterexample :
    Wf ⟨[3], 1⟩ ∧ num_ones ⟨[3], 1⟩ = 2 ∧ specMaskedNumOnes ⟨[3], 1⟩ = 1 := by
  decide

/-- C6 (amended): `NoIndex::num_ones` is the raw, unmasked sum of the word
popcounts over the whole buffer; it agrees with the spec's masked sum
exactly on data whose bits at positions `≥ len` are zero (as produced by the
builder).  Tail bits surviving in `from_bytes`-reconstructed data DO
contribute to `num_ones`. -/
theorem C6_num_ones_masked (d : BitVectorData) (hWf : Wf d) (htz : TailZero d) :
    num_ones d = specMaskedNumOnes d := by
  rw [num_ones_eq_countBelow_len d hWf htz, specMaskedNumOnes_eq_countBelow d hWf]

/-- C6 witness: builder-shaped data `1001` (tail bits zero). -/
theorem C6_num_ones_masked_witness :
    num_ones ⟨[9], 4⟩ = specMaskedNumOnes ⟨[9], 4⟩ :=
  C6_num_ones_masked ⟨[9], 4⟩ (by decide) (by decide)

/-! ### More word buffer lemmas, used for the builder -/

theorem wordAt_append_lt (ws ws2 : List Nat) (j : Nat) (h : j < ws.length) :
    wordAt (ws ++ ws2) j = wordAt ws j := by
  unfold wordAt
  rw [List.getD_eq_getElem?_getD, List.getD_eq_getElem?_getD,
    List.getElem?_append_left h]

theorem wordAt_append_ge (ws ws2 : List Nat) (j : Nat) (h : ws.length ≤ j) :
    wordAt (ws ++ ws2) j = wordAt ws2 (j - ws.length) := by
  unfold wordAt
  rw [List.getD_eq_getElem?_getD, List.getD_eq_getElem?_getD,
    List.getElem?_append_right h]

theorem wordAt_singleton_succ (x t : Nat) : wordAt [x] (t + 1) = 0 := rfl

theorem wordAt_dropLast_append (ws : List Nat) (hne : ws ≠ []) (x j : Nat) :
    wordAt (ws.dropLast ++ [x]) j =
      if j = ws.length - 1 then x else wordAt ws j := by
  have hlen : ws.dropLast.length = ws.length - 1 := List.length_dropLast ws
  have hpos : 0 < ws.length := List.length_pos.mpr hne
  rcases Nat.lt_trichotomy j (ws.length - 1) with h | h | h
  · rw [if_neg (by omega), wordAt_append_lt _ _ j (by omega)]
    unfold wordAt
    rw [List.getD_eq_getElem?_getD, List.getD_eq_getElem?_getD]
    have hj1 : j < ws.dropLast.length := by omega
    have hj2 : j < ws.length := by omega
    rw [List.getElem?_eq_getElem hj1, List.getElem?_eq_getElem hj2,
      List.getElem_dropLast ws j hj1]
  · subst h
    rw [if_pos rfl, wordAt_append_ge _ _ _ (by omega), hlen, Nat.sub_self]
    rfl
  · rw [if_neg (by omega), wordAt_append_ge _ _ _ (by omega),
      wordAt_of_ge_length ws j (by omega), hlen]
    have hge : 1 ≤ j - (ws.length - 1) := by omega
    unfold wordAt
    rw [List.getD_eq_getElem?_getD, List.getElem?_eq_none (by simpa using hge)]
    rfl

/-! ### BitVectorBuilder (`bit_vector.rs`) -/

/-- Builder that collects raw bits into a bit vector
(`BitVectorBuilder`). -/
structure BitVectorBuilder where
  words : List Nat
  len : Nat
deriving Repr, DecidableEq

/-- Creates an empty builder (`BitVectorBuilder::new`). -/
def BitVectorBuilder.new : BitVectorBuilder := ⟨[], 0⟩

/-- Pushes a single bit (`BitVectorBuilder::push_bit`).  The Rust code
mutates `last_mut().unwrap()`; the builder invariant below guarantees the
word buffer is non-empty whenever that branch runs. -/
def push_bit (b : BitVectorBuilder) (bit : Bool) : BitVectorBuilder :=
  let pos_in_word := b.len % 64
  if pos_in_word = 0 then
    ⟨b.words ++ [if bit then 1 else 0], b.len + 1⟩
  else
    ⟨b.words.dropLast ++
      [b.words.getLast?.getD 0 ||| ((if bit then 1 else 0) <<< pos_in_word)],
      b.len + 1⟩

/-- Pushes the `len` low bits of `bits` (`BitVectorBuilder::push_bits`);
`none` models the `Err` returned when `len > 64`.  The `% 2 ^ 64` mirrors
the truncating semantics of `<<` on `usize`. -/
def push_bits (b : BitVectorBuilder) (bits len : Nat) : Option BitVectorBuilder :=
  if 64 < len then none
  else if len = 0 then some b
  else
    let mask := if len < 64 then (1 <<< len) - 1 else 2 ^ 64 - 1
    let masked := bits &&& mask
    let pos_in_word := b.len % 64
    if pos_in_word = 0 then some ⟨b.words ++ [masked], b.len + len⟩
    else
      let cur := b.words.getLast?.getD 0
      let merged := cur ||| ((masked <<< pos_in_word) % 2 ^ 64)
      if 64 - pos_in_word < len then
        some ⟨(b.words.dropLast ++ [merged]) ++ [masked >>> (64 - pos_in_word)],
          b.len + len⟩
      else some ⟨b.words.dropLast ++ [merged], b.len + len⟩

/-- Extends the builder from a bit iterator
(`BitVectorBuilder::extend_bits`). -/
def extend_bits (b : BitVectorBuilder) (bs : List Bool) : BitVectorBuilder :=
  bs.foldl push_bit b

/-- Freezes the collected words into data
(`BitVectorBuilder::into_data`). -/
def into_data (b : BitVectorBuilder) : BitVectorData :=
  ⟨b.words, b.len⟩

/-- Creates bit vector data from a bit iterator
(`BitVectorData::from_bits`). -/
def from_bits (bs : List Bool) : BitVectorData :=
  into_data (extend_bits BitVectorBuilder.new bs)

/-- Builder invariant: exactly `⌈len/64⌉` words, each fitting a machine
word, with all stored bits at positions `≥ len` being zero. -/
def BWf (b : BitVectorBuilder) : Prop :=
  b.words.length = (b.len + 63) / 64 ∧ (∀ w ∈ b.words, w < 2 ^ 64) ∧
  ∀ p, p < 64 * b.words.length → b.len ≤ p → bitAtWords b.words p = false

instance (b : BitVectorBuilder) : Decidable (BWf b) := by
  unfold BWf; infer_instance

theorem BWf.tail {b : BitVectorBuilder} (hb : BWf b) :
    ∀ p, b.len ≤ p → bitAtWords b.words p = false := by
  intro p hp
  rcases Nat.lt_or_ge p (64 * b.words.length) with h | h
  · exact hb.2.2 p h hp
  · exact bitAtWords_of_ge b.words p h

theorem bitval_lt_two (bit : Bool) : (if bit then 1 else 0 : Nat) < 2 := by
  cases bit <;> simp

theorem testBit_bitval (bit : Bool) (t : Nat) :
    (if bit then 1 else 0 : Nat).testBit t = (decide (t = 0) && bit) := by
  cases bit <;> cases t <;> simp [Nat.testBit_succ, Nat.zero_testBit]

theorem push_bit_spec (b : BitVectorBuilder) (hb : BWf b) (bit : Bool) :
    BWf (push_bit b bit) ∧ (push_bit b bit).len = b.len + 1 ∧
    bitAtWords (push_bit b bit).words b.len = bit ∧
    ∀ j, j ≠ b.len → bitAtWords (push_bit b bit).words j = bitAtWords b.words j := by
  obtain ⟨hlen, hlt, htail⟩ := hb
  by_cases hpos : b.len % 64 = 0
  · -- a fresh word is appended
    have hfull : b.len = 64 * b.words.length := by omega
    have hww : (push_bit b bit).words = b.words ++ [if bit then 1 else 0] := by
      unfold push_bit; simp [hpos]
    have hwl : (push_bit b bit).len = b.len + 1 := by
      unfold push_bit; simp [hpos]
    have hchar : ∀ j, bitAtWords (push_bit b bit).words j =
        if j = b.len then bit else bitAtWords b.words j := by
      intro j
      rw [hww]
      unfold bitAtWords
      rcases Nat.lt_or_ge (j / 64) b.words.length with h | h
      · rw [wordAt_append_lt _ _ _ h, if_neg (by omega)]
      · rw [wordAt_append_ge _ _ _ h]
        rcases Nat.eq_or_lt_of_le h with he | hgt
        · -- j lies in the appended word
          rcases Nat.eq_or_lt_of_le (Nat.zero_le (j % 64)) with hz | hnz
          · have hj : j = b.len := by omega
            rw [← he, Nat.sub_self, if_pos hj, ← hz]
            cases bit <;> decide
          · have hj : j ≠ b.len := by omega
            rw [← he, Nat.sub_self, if_neg hj]
            have hw0 : wordAt [if bit then 1 else 0] 0 = (if bit then 1 else 0) := rfl
            rw [hw0, testBit_bitval, wordAt_of_ge_length b.words b.words.length (le_refl _)]
            simp [Nat.zero_testBit]
            omega
        · have hj : j ≠ b.len := by omega
          rw [if_neg hj, wordAt_of_ge_length b.words (j / 64) (by omega)]
          have h1 : 1 ≤ j / 64 - b.words.length := by omega
          rcases Nat.exists_eq_add_of_le h1 with ⟨t, ht⟩
          rw [show j / 64 - b.words.length = t + 1 by omega, wordAt_singleton_succ]
    refine ⟨⟨?_, ?_, ?_⟩, hwl, ?_, ?_⟩
    · rw [hww, hwl]
      simp only [List.length_append, List.length_singleton]
      omega
    · rw [hww]
      intro w hw
      rcases List.mem_append.mp hw with h | h
      · exact hlt w h
      · have : w = if bit then 1 else 0 := List.mem_singleton.mp h
        subst this
        calc (if bit then 1 else 0 : Nat) < 2 := bitval_lt_two bit
          _ ≤ 2 ^ 64 := by norm_num
    · intro p hp1 hp2
      rw [hwl] at hp2
      rw [hchar p, if_neg (by omega)]
      exact BWf.tail ⟨hlen, hlt, htail⟩ p (by omega)
    · rw [hchar b.len, if_pos rfl]
    · intro j hj
      rw [hchar j, if_neg hj]
  · -- the last existing word is updated in place
    have hne : b.words ≠ [] := by
      intro h
      rw [h] at hlen
      simp at hlen
      omega
    have hlast : b.words.getLast?.getD 0 = wordAt b.words (b.words.length - 1) := by
      rw [List.getLast?_eq_getElem?]
      unfold wordAt
      rw [List.getD_eq_getElem?_getD]
    have hww : (push_bit b bit).words =
        b.words.dropLast ++
          [b.words.getLast?.getD 0 ||| ((if bit then 1 else 0) <<< (b.len % 64))] := by
      unfold push_bit; simp [hpos]
    have hwl : (push_bit b bit).len = b.len + 1 := by
      unfold push_bit; simp [hpos]
    have hlenpos : 0 < b.words.length := List.length_pos.mpr hne
    have hdiv : b.len / 64 = b.words.length - 1 := by omega
    have hmerged : ∀ t, (b.words.getLast?.getD 0 |||
        ((if bit then 1 else 0) <<< (b.len % 64))).testBit t =
        ((wordAt b.words (b.words.length - 1)).testBit t ||
          (decide (t = b.len % 64) && bit)) := by
      intro t
      rw [Nat.testBit_or, hlast, Nat.testBit_shiftLeft, testBit_bitval]
      congr 1
      by_cases ht : b.len % 64 ≤ t
      · by_cases hte : t = b.len % 64
        · subst hte
          simp
        · have hne0 : ¬(t - b.len % 64 = 0) := by omega
          simp [ht, hte, hne0]
      · have hne : ¬(t = b.len % 64) := by omega
        simp [ht, hne]
    have hchar : ∀ j, bitAtWords (push_bit b bit).words j =
        if j = b.len then bit else bitAtWords b.words j := by
      intro j
      rw [hww]
      unfold bitAtWords
      rw [wordAt_dropLast_append b.words hne _ (j / 64)]
      by_cases hj : j / 64 = b.words.length - 1
      · rw [if_pos hj, hmerged]
        by_cases hjl : j = b.len
        · subst hjl
          have hfalse : bitAtWords b.words b.len = false :=
            BWf.tail ⟨hlen, hlt, htail⟩ b.len (le_refl _)
          unfold bitAtWords at hfalse
          rw [hdiv] at hfalse
          rw [hfalse]
          simp
        · rw [if_neg hjl]
          have hne2 : ¬(j % 64 = b.len % 64) := by omega
          rw [decide_eq_false hne2, Bool.false_and, Bool.or_false, hj]
      · rw [if_neg hj, if_neg (by omega)]
    refine ⟨⟨?_, ?_, ?_⟩, hwl, ?_, ?_⟩
    · rw [hww, hwl]
      simp only [List.length_append, List.length_singleton, List.length_dropLast]
      omega
    · rw [hww]
      intro w hw
      rcases List.mem_append.mp hw with h | h
      · exact hlt w (List.mem_of_mem_dropLast h)
      · have hwthis := List.mem_singleton.mp h
        subst hwthis
        apply Nat.or_lt_two_pow
        · rw [hlast]
          exact wordAt_lt b.words hlt _
        · calc (if bit then 1 else 0 : Nat) <<< (b.len % 64)
              = (if bit then 1 else 0 : Nat) * 2 ^ (b.len % 64) := Nat.shiftLeft_eq _ _
            _ < 2 * 2 ^ (b.len % 64) :=
                Nat.mul_lt_mul_of_lt_of_le (bitval_lt_two bit) (le_refl _) (by positivity)
            _ ≤ 2 ^ 64 := by
                rw [← pow_succ']
                exact Nat.pow_le_pow_right (by omega) (by omega)
    · intro p hp1 hp2
      rw [hwl] at hp2
      rw [hchar p, if_neg (by omega)]
      exact BWf.tail ⟨hlen, hlt, htail⟩ p (by omega)
    · rw [hchar b.len, if_pos rfl]
    · intro j hj
      rw [hchar j, if_neg hj]


theorem extend_bits_spec (bs : List Bool) :
    ∀ b : BitVectorBuilder, BWf b →
      BWf (extend_bits b bs) ∧
      (extend_bits b bs).len = b.len + bs.length ∧
      (∀ j, j < b.len →
        bitAtWords (extend_bits b bs).words j = bitAtWords b.words j) ∧
      (∀ t, t < bs.length →
        bitAtWords (extend_bits b bs).words (b.len + t) = bs.getD t false) := by
  induction bs with
  | nil =>
    intro b hb
    exact ⟨hb, by simp [extend_bits], fun j _ => rfl, fun t ht => absurd ht (by simp)⟩
  | cons x rest ih =>
    intro b hb
    obtain ⟨hb', hlen', hbit', hother'⟩ := push_bit_spec b hb x
    have hstep : extend_bits b (x :: rest) = extend_bits (push_bit b x) rest := rfl
    obtain ⟨hw, hl, hpre, hnew⟩ := ih (push_bit b x) hb'
    rw [hstep]
    refine ⟨hw, by rw [hl, hlen']; simp; omega, ?_, ?_⟩
    · intro j hj
      rw [hpre j (by omega), hother' j (by omega)]
    · intro t ht
      cases t with
      | zero =>
        have hx := hpre b.len (by omega)
        rw [Nat.add_zero, hx, hbit']
        rfl
      | succ t =>
        have hrest := hnew t (by simp at ht; omega)
        rw [show b.len + (t + 1) = (push_bit b x).len + t by omega, hrest]
        rfl

theorem BWf_new : BWf BitVectorBuilder.new := by decide

theorem from_bits_spec (bs : List Bool) :
    (from_bits bs).len = bs.length ∧
    Wf (from_bits bs) ∧ TailZero (from_bits bs) ∧
    (∀ t, t < bs.length → bitAtWords (from_bits bs).words t = bs.getD t false) ∧
    (∀ p, bs.length ≤ p → bitAtWords (from_bits bs).words p = false) := by
  obtain ⟨hw, hl, _, hnew⟩ := extend_bits_spec bs BitVectorBuilder.new BWf_new
  have h0 : BitVectorBuilder.new.len = 0 := rfl
  rw [h0, Nat.zero_add] at hl
  have hlen : (from_bits bs).len = bs.length := hl
  have hwords : (from_bits bs).words = (extend_bits BitVectorBuilder.new bs).words := rfl
  obtain ⟨hwlen, hwlt, hwtail⟩ := hw
  have htailz : ∀ p, bs.length ≤ p → bitAtWords (from_bits bs).words p = false := by
    intro p hp
    rw [hwords]
    exact BWf.tail ⟨hwlen, hwlt, hwtail⟩ p (by rw [hl]; omega)
  refine ⟨hlen, ⟨?_, ?_⟩, ?_, ?_, htailz⟩
  · show ((from_bits bs).len + 63) / 64 ≤ (from_bits bs).words.length
    rw [hlen, hwords, hwlen, hl]
  · intro w hwmem
    exact hwlt w hwmem
  · intro p hp1 hp2
    rw [hlen] at hp2
    exact htailz p hp2
  · intro t ht
    have hx := hnew t ht
    rw [h0, Nat.zero_add] at hx
    exact hx

theorem countBelow_from_bits (bs : List Bool) (i : Nat) (hi : i ≤ bs.length) :
    countBelow (from_bits bs).words i =
      (List.range i).countP (fun t => bs.getD t false) := by
  obtain ⟨_, _, _, hbits, _⟩ := from_bits_spec bs
  unfold countBelow
  apply List.countP_congr
  intro t htmem
  have ht := List.mem_range.mp htmem
  rw [hbits t (by omega)]

/-! ### NoIndex select queries (`bit_vector.rs`) -/

/-- Word-scan loop of `NoIndex::select1`: accumulate popcounts until the
requested rank falls inside a word, then finish with `select_in_word`. -/
def select1Go (k : Nat) : List Nat → Nat → Nat → Option Nat
  | [], _, _ => none
  | w :: ws, wpos, cur_rank =>
    if k < cur_rank + popcount w then
      (select_in_word w (k - cur_rank)).map (fun s => wpos * 64 + s)
    else select1Go k ws (wpos + 1) (cur_rank + popcount w)

/-- Select query for ones (`NoIndex::select1`). -/
def select1 (d : BitVectorData) (k : Nat) : Option Nat :=
  select1Go k d.words 0 0

theorem select1Go_cons (k w : Nat) (ws : List Nat) (wpos cur_rank : Nat) :
    select1Go k (w :: ws) wpos cur_rank =
      if k < cur_rank + popcount w then
        (select_in_word w (k - cur_rank)).map (fun s => wpos * 64 + s)
      else select1Go k ws (wpos + 1) (cur_rank + popcount w) := by
  simp only [select1Go]

theorem select1Go_spec :
    ∀ (ws pre : List Nat) (k : Nat),
      (∀ w ∈ pre ++ ws, w < 2 ^ 64) →
      (pre.map popcount).sum ≤ k →
      k < (pre.map popcount).sum + (ws.map popcount).sum →
      ∃ p, select1Go k ws pre.length ((pre.map popcount).sum) = some p ∧
        p < 64 * (pre ++ ws).length ∧
        bitAtWords (pre ++ ws) p = true ∧
        countBelow (pre ++ ws) p = k := by
  intro ws
  induction ws with
  | nil =>
    intro pre k hall hle hlt
    exfalso
    simp at hlt
    omega
  | cons w ws ih =>
    intro pre k hall hle hlt
    have hwq : wordAt (pre ++ w :: ws) pre.length = w := by
      rw [wordAt_append_ge _ _ _ (le_refl _), Nat.sub_self]
      rfl
    by_cases hcase : k < (pre.map popcount).sum + popcount w
    · have hkw : k - (pre.map popcount).sum < popcount w := by omega
      obtain ⟨s, hs, hbit, hcnt⟩ := select_in_word_spec w _ hkw
      have hw64 : w < 2 ^ 64 := hall w (by simp)
      have hs64 : s < 64 := by
        by_contra hge
        have h1 : (2 : Nat) ^ s ≤ w := Nat.testBit_implies_ge hbit
        have h2 : (2 : Nat) ^ 64 ≤ 2 ^ s := Nat.pow_le_pow_right (by omega) (by omega)
        omega
      refine ⟨pre.length * 64 + s, ?_, ?_, ?_, ?_⟩
      · show select1Go k (w :: ws) pre.length ((pre.map popcount).sum) = _
        rw [select1Go_cons, if_pos hcase, hs]
        rfl
      · simp only [List.length_append, List.length_cons]
        omega
      · rw [show pre.length * 64 + s = 64 * pre.length + s by ring,
          bitAtWords_eq_testBit _ _ _ hs64, hwq]
        exact hbit
      · rw [show pre.length * 64 + s = 64 * pre.length + s by ring,
          countBelow_split (pre ++ w :: ws) hall pre.length s (by omega),
          List.take_left' rfl, hwq, ← popcount_mod_two_pow, hcnt]
        omega
    · have hstep : select1Go k (w :: ws) pre.length ((pre.map popcount).sum) =
          select1Go k ws (pre.length + 1) ((pre.map popcount).sum + popcount w) := by
        rw [select1Go_cons, if_neg hcase]
      have hsum : ((pre ++ [w]).map popcount).sum =
          (pre.map popcount).sum + popcount w := by simp
      have hlen2 : (pre ++ [w]).length = pre.length + 1 := by simp
      have happ : (pre ++ [w]) ++ ws = pre ++ w :: ws := by simp
      have hall2 : ∀ x ∈ (pre ++ [w]) ++ ws, x < 2 ^ 64 := by
        rw [happ]
        exact hall
      have hlt2 : k < ((pre ++ [w]).map popcount).sum + (ws.map popcount).sum := by
        rw [hsum]
        simp only [List.map_cons, List.sum_cons] at hlt
        omega
      obtain ⟨p, hp, hbnd, hbt, hc⟩ := ih (pre ++ [w]) k hall2 (by rw [hsum]; omega) hlt2
      rw [hlen2, hsum] at hp
      rw [happ] at hbnd hbt hc
      exact ⟨p, by rw [hstep]; exact hp, hbnd, hbt, hc⟩

/-- C2: on data built from a bit sequence, for every `k < num_ones`,
`NoIndex::select1` returns `some p` with `rank1(p) = k`,
`access(p) = true`, and `rank1(p + 1) = k + 1`. -/
theorem C2_select1 (bs : List Bool) (k : Nat) (hk : k < num_ones (from_bits bs)) :
    ∃ p, select1 (from_bits bs) k = some p ∧ p < (from_bits bs).len ∧
      rank1 (from_bits bs) p = some k ∧
      (from_bits bs).access p = some true ∧
      rank1 (from_bits bs) (p + 1) = some (k + 1) := by
  obtain ⟨hlen, hWf, htz, hbits, htail⟩ := from_bits_spec bs
  obtain ⟨p, hp, hbnd, hbit, hcnt⟩ :=
    select1Go_spec (from_bits bs).words [] k (by simpa using hWf.2) (by simp)
      (by simpa [num_ones] using hk)
  simp only [List.nil_append, List.length_nil, List.map_nil, List.sum_nil] at hp hbnd hbit hcnt
  have hplen : p < (from_bits bs).len := by
    by_contra hge
    push_neg at hge
    have hfalse := htail p (by omega)
    rw [hbit] at hfalse
    exact Bool.noConfusion hfalse
  refine ⟨p, hp, hplen, ?_, ?_, ?_⟩
  · rw [rank1_eq_countBelow (from_bits bs) hWf.2 p (by omega), hcnt]
  · rw [access_eq_bitAt (from_bits bs) p hplen]
    show some (bitAtWords (from_bits bs).words p) = some true
    rw [hbit]
  · rw [rank1_eq_countBelow (from_bits bs) hWf.2 (p + 1) (by omega),
      countBelow_succ, hbit, hcnt]
    simp

/-- C2 witness: bits `1001`, `k = 1` selects position 3. -/
theorem C2_select1_witness :
    ∃ p, select1 (from_bits [true, false, false, true]) 1 = some p ∧
      p < (from_bits [true, false, false, true]).len ∧
      rank1 (from_bits [true, false, false, true]) p = some 1 ∧
      (from_bits [true, false, false, true]).access p = some true ∧
      rank1 (from_bits [true, false, false, true]) (p + 1) = some 2 :=
  C2_select1 [true, false, false, true] 1 (by decide)


/-! ### Zero-polarity counting and NoIndex select0 -/

/-- Bitwise complement of a 64-bit machine word (`!w` on `usize`). -/
def notWord (w : Nat) : Nat := w ^^^ (2 ^ 64 - 1)

/-- Number of unset bits among positions `[0, i)` of a word buffer. -/
def countZerosBelow (ws : List Nat) (i : Nat) : Nat :=
  (List.range i).countP (fun p => ! bitAtWords ws p)

theorem notWord_lt (w : Nat) : notWord w < 2 ^ 64 → True := fun _ => trivial

theorem notWord_lt_two_pow (w : Nat) (hw : w < 2 ^ 64) : notWord w < 2 ^ 64 :=
  Nat.xor_lt_two_pow hw (Nat.sub_lt (by positivity) (by omega))

theorem testBit_notWord (w t : Nat) (hw : w < 2 ^ 64) :
    (notWord w).testBit t = (decide (t < 64) && ! w.testBit t) := by
  unfold notWord
  rw [Nat.testBit_xor, Nat.testBit_two_pow_sub_one]
  by_cases ht : t < 64
  · simp [ht]
  · have hbit : w.testBit t = false :=
      Nat.testBit_lt_two_pow
        (lt_of_lt_of_le hw (Nat.pow_le_pow_right (by omega) (by omega)))
    simp [ht, hbit]

theorem popcount_notWord (w : Nat) (hw : w < 2 ^ 64) :
    popcount (notWord w) = (List.range 64).countP (fun t => ! w.testBit t) := by
  rw [popcount_eq_countP _ (notWord_lt_two_pow w hw)]
  apply List.countP_congr
  intro t htmem
  have ht := List.mem_range.mp htmem
  rw [testBit_notWord w t hw]
  simp [ht]

theorem countZerosBelow_add (ws : List Nat) (a r : Nat) :
    countZerosBelow ws (a + r) =
      countZerosBelow ws a +
        (List.range r).countP (fun t => ! bitAtWords ws (a + t)) := by
  unfold countZerosBelow
  rw [List.range_add, List.countP_append, List.countP_map]
  rfl

theorem countZerosBelow_window (ws : List Nat) (q r : Nat) (hr : r ≤ 64) :
    (List.range r).countP (fun t => ! bitAtWords ws (64 * q + t)) =
      (List.range r).countP (fun t => ! (wordAt ws q).testBit t) := by
  apply List.countP_congr
  intro t htmem
  have ht := List.mem_range.mp htmem
  rw [bitAtWords_eq_testBit ws q t (by omega)]

theorem countZerosBelow_full (ws : List Nat) (hlt : ∀ w ∈ ws, w < 2 ^ 64) :
    ∀ q : Nat, q ≤ ws.length →
      countZerosBelow ws (64 * q) =
        ((ws.take q).map (fun w => popcount (notWord w))).sum := by
  intro q
  induction q with
  | zero => intro _; simp [countZerosBelow]
  | succ q ih =>
    intro hq
    have hqlt : q < ws.length := by omega
    have hw : wordAt ws q = ws[q] := by
      unfold wordAt
      rw [List.getD_eq_getElem?_getD, List.getElem?_eq_getElem hqlt]
      rfl
    have hstep : 64 * (q + 1) = 64 * q + 64 := by ring
    rw [hstep, countZerosBelow_add, countZerosBelow_window ws q 64 (by omega),
      ih (by omega), ← popcount_notWord _ (wordAt_lt ws hlt q),
      List.take_succ, List.getElem?_eq_getElem hqlt, List.map_append, List.sum_append]
    simp [hw]

theorem countZerosBelow_split (ws : List Nat) (hlt : ∀ w ∈ ws, w < 2 ^ 64)
    (q r : Nat) (hq : q ≤ ws.length) (hr : r ≤ 64) :
    countZerosBelow ws (64 * q + r) =
      ((ws.take q).map (fun w => popcount (notWord w))).sum +
        (List.range r).countP (fun t => ! (wordAt ws q).testBit t) := by
  rw [countZerosBelow_add, countZerosBelow_window ws q r hr,
    countZerosBelow_full ws hlt q hq]

theorem countBelow_add_countZeros (ws : List Nat) (i : Nat) :
    countBelow ws i + countZerosBelow ws i = i := by
  induction i with
  | zero => rfl
  | succ i ih =>
    have h1 := countBelow_succ ws i
    have h2 : countZerosBelow ws (i + 1) =
        countZerosBelow ws i + if bitAtWords ws i then 0 else 1 := by
      unfold countZerosBelow
      rw [List.range_succ, List.countP_append, List.countP_cons, List.countP_nil]
      cases hbit : bitAtWords ws i <;> simp [hbit]
    rw [h1, h2]
    cases hbit : bitAtWords ws i <;> simp [hbit] <;> omega

/-- Word-scan loop of `NoIndex::select0`: like `select1Go` but counting
unset bits via `popcount(!w)`. -/
def select0Go (k : Nat) : List Nat → Nat → Nat → Option Nat
  | [], _, _ => none
  | w :: ws, wpos, cur_rank =>
    if k < cur_rank + popcount (notWord w) then
      (select_in_word (notWord w) (k - cur_rank)).map (fun s => wpos * 64 + s)
    else select0Go k ws (wpos + 1) (cur_rank + popcount (notWord w))

theorem select0Go_cons (k w : Nat) (ws : List Nat) (wpos cur_rank : Nat) :
    select0Go k (w :: ws) wpos cur_rank =
      if k < cur_rank + popcount (notWord w) then
        (select_in_word (notWord w) (k - cur_rank)).map (fun s => wpos * 64 + s)
      else select0Go k ws (wpos + 1) (cur_rank + popcount (notWord w)) := by
  simp only [select0Go]

/-- Word-scan part of `NoIndex::select0`, before the final bound check. -/
def select0Scan (d : BitVectorData) (k : Nat) : Option Nat :=
  select0Go k d.words 0 0

/-- Select query for zeros (`NoIndex::select0`): scan, then reject candidate
positions falling at or beyond `len` (in the unused tail). -/
def select0 (d : BitVectorData) (k : Nat) : Option Nat :=
  match select0Scan d k with
  | none => none
  | some sel => if sel < d.len then some sel else none

theorem select0Go_spec :
    ∀ (ws pre : List Nat) (k : Nat),
      (∀ w ∈ pre ++ ws, w < 2 ^ 64) →
      ((pre.map (fun w => popcount (notWord w))).sum ≤ k) →
      (k < (pre.map (fun w => popcount (notWord w))).sum +
        (ws.map (fun w => popcount (notWord w))).sum) →
      ∃ p, select0Go k ws pre.length
          ((pre.map (fun w => popcount (notWord w))).sum) = some p ∧
        p < 64 * (pre ++ ws).length ∧
        bitAtWords (pre ++ ws) p = false ∧
        countZerosBelow (pre ++ ws) p = k := by
  intro ws
  induction ws with
  | nil =>
    intro pre k hall hle hlt
    exfalso
    simp at hlt
    omega
  | cons w ws ih =>
    intro pre k hall hle hlt
    have hw64 : w < 2 ^ 64 := hall w (by simp)
    have hwq : wordAt (pre ++ w :: ws) pre.length = w := by
      rw [wordAt_append_ge _ _ _ (le_refl _), Nat.sub_self]
      rfl
    by_cases hcase : k < (pre.map (fun w => popcount (notWord w))).sum + popcount (notWord w)
    · have hkw : k - (pre.map (fun w => popcount (notWord w))).sum < popcount (notWord w) := by
        omega
      obtain ⟨s, hs, hbit, hcnt⟩ := select_in_word_spec (notWord w) _ hkw
      have hbit' := hbit
      rw [testBit_notWord w s hw64] at hbit'
      have hs64 : s < 64 := by
        by_contra hge
        simp [hge] at hbit'
      have hwbit : w.testBit s = false := by
        simp [hs64] at hbit'
        exact hbit'
      have hzcut : (List.range s).countP (fun t => ! w.testBit t) =
          k - (pre.map (fun w => popcount (notWord w))).sum := by
        rw [← hcnt, popcount_mod_two_pow]
        apply List.countP_congr
        intro t htmem
        have ht := List.mem_range.mp htmem
        rw [testBit_notWord w t hw64]
        simp [show t < 64 by omega]
      refine ⟨pre.length * 64 + s, ?_, ?_, ?_, ?_⟩
      · show select0Go k (w :: ws) pre.length _ = _
        rw [select0Go_cons, if_pos hcase, hs]
        rfl
      · simp only [List.length_append, List.length_cons]
        omega
      · rw [show pre.length * 64 + s = 64 * pre.length + s by ring,
          bitAtWords_eq_testBit _ _ _ hs64, hwq]
        exact hwbit
      · rw [show pre.length * 64 + s = 64 * pre.length + s by ring,
          countZerosBelow_split (pre ++ w :: ws) hall pre.length s
            (by simp) (by omega),
          List.take_left' rfl, hwq, hzcut]
        omega
    · have hstep : select0Go k (w :: ws) pre.length
            ((pre.map (fun w => popcount (notWord w))).sum) =
          select0Go k ws (pre.length + 1)
            ((pre.map (fun w => popcount (notWord w))).sum + popcount (notWord w)) := by
        rw [select0Go_cons, if_neg hcase]
      have hsum : ((pre ++ [w]).map (fun w => popcount (notWord w))).sum =
          (pre.map (fun w => popcount (notWord w))).sum + popcount (notWord w) := by
        simp
      have hlen2 : (pre ++ [w]).length = pre.length + 1 := by simp
      have happ : (pre ++ [w]) ++ ws = pre ++ w :: ws := by simp
      have hall2 : ∀ x ∈ (pre ++ [w]) ++ ws, x < 2 ^ 64 := by
        rw [happ]
        exact hall
      have hlt2 : k < ((pre ++ [w]).map (fun w => popcount (notWord w))).sum +
          (ws.map (fun w => popcount (notWord w))).sum := by
        rw [hsum]
        simp only [List.map_cons, List.sum_cons] at hlt
        omega
      obtain ⟨p, hp, hbnd, hbt, hc⟩ := ih (pre ++ [w]) k hall2 (by rw [hsum]; omega) hlt2
      rw [hlen2, hsum] at hp
      rw [happ] at hbnd hbt hc
      exact ⟨p, by rw [hstep]; exact hp, hbnd, hbt, hc⟩

/-- C3: on data built from a bit sequence, for every `k < num_zeros`,
`NoIndex::select0` returns `some p` with `p < len`, `rank0(p) = k` and
`access(p) = false`; and whenever the word scan produces a candidate
position at or beyond `len` (inside the unused tail of the last word),
`select0` returns `none` instead of that position. -/
theorem C3_select0 (bs : List Bool) :
    (∀ k, k < num_zeros (from_bits bs) →
      ∃ p, select0 (from_bits bs) k = some p ∧ p < (from_bits bs).len ∧
        rank0 (from_bits bs) p = some k ∧
        (from_bits bs).access p = some false) ∧
    (∀ k s, select0Scan (from_bits bs) k = some s → (from_bits bs).len ≤ s →
      select0 (from_bits bs) k = none) := by
  obtain ⟨hlen, hWf, htz, hbits, htail⟩ := from_bits_spec bs
  constructor
  · intro k hk
    have hnum : num_ones (from_bits bs) = countBelow (from_bits bs).words (from_bits bs).len :=
      num_ones_eq_countBelow_len (from_bits bs) hWf htz
    have hrel := countBelow_add_countZeros (from_bits bs).words (from_bits bs).len
    have hzlen : countZerosBelow (from_bits bs).words (from_bits bs).len =
        num_zeros (from_bits bs) := by
      unfold num_zeros
      omega
    have hcblen : (from_bits bs).len ≤ 64 * (from_bits bs).words.length := by
      have := hWf.1
      omega
    have htotal : countZerosBelow (from_bits bs).words (64 * (from_bits bs).words.length) =
        ((from_bits bs).words.map (fun w => popcount (notWord w))).sum := by
      rw [countZerosBelow_full (from_bits bs).words hWf.2 (from_bits bs).words.length
        (le_refl _), List.take_length]
    have hztot : num_zeros (from_bits bs) ≤
        ((from_bits bs).words.map (fun w => popcount (notWord w))).sum := by
      rw [← htotal, ← hzlen]
      have hsplit := countZerosBelow_add (from_bits bs).words (from_bits bs).len
        (64 * (from_bits bs).words.length - (from_bits bs).len)
      rw [show (from_bits bs).len + (64 * (from_bits bs).words.length - (from_bits bs).len)
        = 64 * (from_bits bs).words.length by omega] at hsplit
      omega
    obtain ⟨p, hp, hbnd, hbit, hcnt⟩ :=
      select0Go_spec (from_bits bs).words [] k (by simpa using hWf.2) (by simp)
        (by simp; omega)
    simp only [List.nil_append, List.length_nil, List.map_nil, List.sum_nil] at hp hbnd hbit hcnt
    have hplen : p < (from_bits bs).len := by
      by_contra hge
      push_neg at hge
      have hsplit := countZerosBelow_add (from_bits bs).words (from_bits bs).len
        (p - (from_bits bs).len)
      rw [show (from_bits bs).len + (p - (from_bits bs).len) = p by omega] at hsplit
      have hall2 : ∀ a ∈ List.range (p - (from_bits bs).len),
          (! bitAtWords (from_bits bs).words ((from_bits bs).len + a)) = true := by
        intro a hamem
        have hzero := htail ((from_bits bs).len + a) (by omega)
        rw [hzero]
        rfl
      have hfull : (List.range (p - (from_bits bs).len)).countP
          (fun t => ! bitAtWords (from_bits bs).words ((from_bits bs).len + t)) =
          p - (from_bits bs).len := by
        have h1 := List.countP_eq_length.mpr hall2
        rw [List.length_range] at h1
        exact h1
      omega
    have hguard : select0 (from_bits bs) k = some p := by
      unfold select0
      show (match select0Scan (from_bits bs) k with
        | none => none
        | some sel => if sel < (from_bits bs).len then some sel else none) = some p
      rw [show select0Scan (from_bits bs) k = some p from hp]
      simp [hplen]
    refine ⟨p, hguard, hplen, ?_, ?_⟩
    · unfold rank0
      rw [rank1_eq_countBelow (from_bits bs) hWf.2 p (by omega)]
      have hrelp := countBelow_add_countZeros (from_bits bs).words p
      show some (p - countBelow (from_bits bs).words p) = some k
      congr 1
      omega
    · rw [access_eq_bitAt (from_bits bs) p hplen]
      show some (bitAtWords (from_bits bs).words p) = some false
      rw [hbit]
  · intro k s hscan hge
    unfold select0
    rw [show select0Scan (from_bits bs) k = some s from hscan]
    simp
    omega

/-- C3 witness: bits `1001`, `k = 1` selects position 2. -/
theorem C3_select0_witness :
    ∃ p, select0 (from_bits [true, false, false, true]) 1 = some p ∧
      p < (from_bits [true, false, false, true]).len ∧
      rank0 (from_bits [true, false, false, true]) p = some 1 ∧
      (from_bits [true, false, false, true]).access p = some false :=
  (C3_select0 [true, false, false, true]).1 1 (by decide)


/-! ### Claim C4: get_bits -/

theorem mask_eq_two_pow_sub_one (n : Nat) (hn : n ≤ 64) :
    (if n < 64 then (1 <<< n) - 1 else 2 ^ 64 - 1) = 2 ^ n - 1 := by
  by_cases h : n < 64
  · rw [if_pos h, Nat.shiftLeft_eq, one_mul]
  · have h64 : n = 64 := by omega
    rw [if_neg h, h64]

theorem shiftRight_lt_two_pow (w s m : Nat) (hw : w < 2 ^ (m + s)) :
    w >>> s < 2 ^ m := by
  rw [Nat.shiftRight_eq_div_pow]
  apply Nat.div_lt_of_lt_mul
  rw [← pow_add]
  rw [Nat.add_comm m s] at hw
  exact hw

/-- C4: for well-formed data, `get_bits(pos, n)` is `none` exactly when
`n > 64` or `pos + n > len`; `get_bits(pos, 0)` is `some 0` whenever
`pos ≤ len`; and in the remaining cases it returns the integer whose bit
`i < n` is bit `pos + i` of the data (with all higher bits zero), also when
the range straddles a word boundary. -/
theorem C4_get_bits (d : BitVectorData) (hWf : Wf d) (pos n : Nat) :
    (d.get_bits pos n = none ↔ 64 < n ∨ d.len < pos + n) ∧
    (pos ≤ d.len → d.get_bits pos 0 = some 0) ∧
    (n ≤ 64 → pos + n ≤ d.len →
      ∃ x, d.get_bits pos n = some x ∧ x < 2 ^ n ∧
        ∀ i, i < n → x.testBit i = bitAtWords d.words (pos + i)) := by
  refine ⟨?_, ?_, ?_⟩
  · constructor
    · intro h
      by_contra hcon
      push_neg at hcon
      unfold BitVectorData.get_bits at h
      rw [if_neg (by omega)] at h
      by_cases hz : n = 0
      · rw [if_pos hz] at h
        exact Option.noConfusion h
      · rw [if_neg hz] at h
        exact Option.noConfusion h
    · intro h
      unfold BitVectorData.get_bits
      rw [if_pos (by omega)]
  · intro hpos
    unfold BitVectorData.get_bits
    rw [if_neg (by omega), if_pos rfl]
  · intro hn hlen
    by_cases hz : n = 0
    · subst hz
      refine ⟨0, ?_, by positivity, fun i hi => absurd hi (by omega)⟩
      unfold BitVectorData.get_bits
      rw [if_neg (by omega), if_pos rfl]
    · have hposlt : pos < d.len := by omega
      have hw0lt : wordAt d.words (pos / 64) < 2 ^ 64 := wordAt_lt d.words hWf.2 _
      have hw1lt : wordAt d.words (pos / 64 + 1) < 2 ^ 64 := wordAt_lt d.words hWf.2 _
      have hposeq : pos = 64 * (pos / 64) + pos % 64 := by omega
      by_cases hsplit : pos % 64 + n ≤ 64
      · -- single-word read
        refine ⟨(wordAt d.words (pos / 64) >>> (pos % 64)) &&& (2 ^ n - 1), ?_, ?_, ?_⟩
        · unfold BitVectorData.get_bits
          rw [if_neg (by omega), if_neg hz]
          simp only [mask_eq_two_pow_sub_one n hn, if_pos hsplit]
        · exact Nat.and_lt_two_pow _ (Nat.sub_lt (by positivity) (by omega))
        · intro i hi
          rw [Nat.testBit_and, Nat.testBit_shiftRight, Nat.testBit_two_pow_sub_one,
            decide_eq_true hi, Bool.and_true]
          have hdiv : (pos + i) / 64 = pos / 64 := by omega
          have hmod : (pos + i) % 64 = pos % 64 + i := by omega
          unfold bitAtWords
          rw [hdiv, hmod]
      · -- the read straddles a word boundary
        refine ⟨(wordAt d.words (pos / 64) >>> (pos % 64)) |||
            (((wordAt d.words (pos / 64 + 1) <<< (64 - pos % 64)) % 2 ^ 64) &&& (2 ^ n - 1)),
            ?_, ?_, ?_⟩
        · unfold BitVectorData.get_bits
          rw [if_neg (by omega), if_neg hz]
          simp only [mask_eq_two_pow_sub_one n hn, if_neg hsplit]
        · apply Nat.or_lt_two_pow
          · have h1 : wordAt d.words (pos / 64) >>> (pos % 64) < 2 ^ (64 - pos % 64) :=
              shiftRight_lt_two_pow _ _ _
                (by rw [show 64 - pos % 64 + pos % 64 = 64 by omega]; exact hw0lt)
            exact lt_of_lt_of_le h1 (Nat.pow_le_pow_right (by omega) (by omega))
          · exact Nat.and_lt_two_pow _ (Nat.sub_lt (by positivity) (by omega))
        · intro i hi
          rw [Nat.testBit_or, Nat.testBit_shiftRight, Nat.testBit_and,
            Nat.testBit_two_pow_sub_one, decide_eq_true hi, Bool.and_true,
            Nat.testBit_mod_two_pow, Nat.testBit_shiftLeft]
          by_cases hcross : pos % 64 + i < 64
          · -- the bit still comes from the first word
            have h2zero : ¬(64 - pos % 64 ≤ i) := by omega
            rw [decide_eq_false h2zero]
            simp only [Bool.false_and, Bool.and_false, Bool.or_false]
            have hdiv : (pos + i) / 64 = pos / 64 := by omega
            have hmod : (pos + i) % 64 = pos % 64 + i := by omega
            unfold bitAtWords
            rw [hdiv, hmod]
          · -- the bit comes from the second word
            have h1zero : (wordAt d.words (pos / 64)).testBit (pos % 64 + i) = false :=
              Nat.testBit_lt_two_pow
                (lt_of_lt_of_le hw0lt (Nat.pow_le_pow_right (by omega) (by omega)))
            have hile : i < 64 := by omega
            rw [h1zero, decide_eq_true (show 64 - pos % 64 ≤ i by omega),
              decide_eq_true hile]
            simp only [Bool.true_and, Bool.and_true, Bool.false_or]
            have hdiv : (pos + i) / 64 = pos / 64 + 1 := by omega
            have hmod : (pos + i) % 64 = pos % 64 + i - 64 := by omega
            unfold bitAtWords
            rw [hdiv, hmod, show i - (64 - pos % 64) = pos % 64 + i - 64 by omega]
  
/-- C4 witness: bits `10110`; an in-range read and an out-of-range read. -/
theorem C4_get_bits_witness :
    (from_bits [true, false, true, true, false]).get_bits 2 4 = none ∧
    (from_bits [true, false, true, true, false]).get_bits 1 3 = some 6 :=
  ⟨(C4_get_bits (from_bits [true, false, true, true, false]) (by decide) 2 4).1.mpr
      (by decide),
    by decide⟩


/-! ### Claim C5: push_bits -/

theorem testBit_and_two_pow_sub_one (v n i : Nat) :
    (v &&& (2 ^ n - 1)).testBit i = (decide (i < n) && v.testBit i) := by
  rw [Nat.testBit_and, Nat.testBit_two_pow_sub_one, Bool.and_comm]

set_option maxRecDepth 4000 in
/-- C5: `push_bits(v, n)` errs exactly when `n > 64`; on success the bit
length grows by exactly `n`, the appended bits are the low `n` bits of `v`
(bits above the low `n` are dropped), previously stored bits are untouched,
and the write touches at most the last existing word plus one new word.
The final conjunct is the word-boundary scenario from the spec: after 62
zero bits, pushing `0b011111` over 6 bits makes `get_bits(61, 7)` return
`0b0111110`. -/
theorem C5_push_bits :
    (∀ (b : BitVectorBuilder), BWf b → ∀ (v n : Nat),
      (push_bits b v n = none ↔ 64 < n) ∧
      (n ≤ 64 → ∃ b2, push_bits b v n = some b2 ∧
        b2.len = b.len + n ∧
        b2.words.length ≤ b.words.length + 1 ∧
        (∀ j, j < b.words.length - 1 → wordAt b2.words j = wordAt b.words j) ∧
        BWf b2 ∧
        (∀ i, i < n → bitAtWords b2.words (b.len + i) = v.testBit i) ∧
        (∀ j, j < b.len → bitAtWords b2.words j = bitAtWords b.words j))) ∧
    ((push_bits (extend_bits BitVectorBuilder.new (List.replicate 62 false)) 31 6).map
      (fun b2 => (into_data b2).get_bits 61 7) = some (some 62)) := by
  constructor
  · intro b hb v n
    obtain ⟨hlen, hlt, htail0⟩ := hb
    have htail := BWf.tail ⟨hlen, hlt, htail0⟩
    constructor
    · constructor
      · intro h
        by_contra hcon
        unfold push_bits at h
        rw [if_neg hcon] at h
        by_cases hz : n = 0
        · rw [if_pos hz] at h
          exact Option.noConfusion h
        · rw [if_neg hz] at h
          by_cases hp : b.len % 64 = 0
          · simp only [hp, if_pos rfl] at h
            exact Option.noConfusion h
          · simp only [if_neg hp] at h
            by_cases hover : 64 - b.len % 64 < n
            · rw [if_pos hover] at h
              exact Option.noConfusion h
            · rw [if_neg hover] at h
              exact Option.noConfusion h
      · intro h
        unfold push_bits
        rw [if_pos h]
    · intro hn
      by_cases hz : n = 0
      · refine ⟨b, ?_, by omega, by omega, fun j _ => rfl, ⟨hlen, hlt, htail0⟩,
          fun i hi => absurd hi (by omega), fun j _ => rfl⟩
        unfold push_bits
        rw [if_neg (by omega), if_pos hz]
      · have hmask := mask_eq_two_pow_sub_one n hn
        set masked := v &&& (2 ^ n - 1) with hmasked
        have hmaskedBit : ∀ i, i < n → masked.testBit i = v.testBit i := by
          intro i hi
          rw [hmasked, testBit_and_two_pow_sub_one, decide_eq_true hi, Bool.true_and]
        have hmaskedLt : masked < 2 ^ n :=
          Nat.and_lt_two_pow _ (Nat.sub_lt (by positivity) (by omega))
        have hmaskedHigh : ∀ t, n ≤ t → masked.testBit t = false := by
          intro t ht
          exact Nat.testBit_lt_two_pow
            (lt_of_lt_of_le hmaskedLt (Nat.pow_le_pow_right (by omega) ht))
        by_cases hp : b.len % 64 = 0
        · -- fresh word: the masked bits become a new word
          have hfull : b.len = 64 * b.words.length := by omega
          refine ⟨⟨b.words ++ [masked], b.len + n⟩, ?_, rfl, by simp, ?_, ?_, ?_, ?_⟩
          · unfold push_bits
            rw [if_neg (by omega), if_neg hz]
            simp only [hp, hmask]
            rw [if_pos trivial]
          · intro j hj
            exact wordAt_append_lt _ _ j (by omega)
          · refine ⟨?_, ?_, ?_⟩
            · dsimp only
              simp only [List.length_append, List.length_singleton]
              omega
            · intro w hw
              dsimp only at hw
              rcases List.mem_append.mp hw with h | h
              · exact hlt w h
              · rw [List.mem_singleton.mp h]
                exact lt_of_lt_of_le hmaskedLt (Nat.pow_le_pow_right (by omega) hn)
            · intro p hp1 hp2
              dsimp only at hp1 hp2
              simp only [List.length_append, List.length_singleton] at hp1
              show bitAtWords (b.words ++ [masked]) p = false
              unfold bitAtWords
              have hdivle : p / 64 ≤ b.words.length := by omega
              rcases Nat.lt_or_ge (p / 64) b.words.length with hdlt | hdge
              · exfalso
                omega
              · have hdeq : p / 64 = b.words.length := by omega
                rw [wordAt_append_ge _ _ _ hdge, hdeq, Nat.sub_self]
                show masked.testBit (p % 64) = false
                exact hmaskedHigh _ (by omega)
          · intro i hi
            show bitAtWords (b.words ++ [masked]) (b.len + i) = v.testBit i
            unfold bitAtWords
            have hdeq : (b.len + i) / 64 = b.words.length := by omega
            rw [wordAt_append_ge _ _ _ (by omega), hdeq, Nat.sub_self]
            show masked.testBit ((b.len + i) % 64) = v.testBit i
            rw [show (b.len + i) % 64 = i by omega]
            exact hmaskedBit i hi
          · intro j hj
            show bitAtWords (b.words ++ [masked]) j = bitAtWords b.words j
            unfold bitAtWords
            rw [wordAt_append_lt _ _ _ (by omega)]
        · -- merge into the last word, possibly spilling into a new word
          have hne : b.words ≠ [] := by
            intro h
            rw [h] at hlen
            simp at hlen
            omega
          have hlenpos : 0 < b.words.length := List.length_pos.mpr hne
          have hdivQ : b.len / 64 = b.words.length - 1 := by omega
          have hlast : b.words.getLast?.getD 0 = wordAt b.words (b.words.length - 1) := by
            rw [List.getLast?_eq_getElem?]
            unfold wordAt
            rw [List.getD_eq_getElem?_getD]
          set pos := b.len % 64 with hposdef
          set merged := b.words.getLast?.getD 0 ||| ((masked <<< pos) % 2 ^ 64) with hmergeddef
          have hmergedBit : ∀ t, merged.testBit t =
              ((wordAt b.words (b.words.length - 1)).testBit t ||
                (decide (pos ≤ t) && decide (t < 64) && masked.testBit (t - pos))) := by
            intro t
            rw [hmergeddef, Nat.testBit_or, hlast, Nat.testBit_mod_two_pow,
              Nat.testBit_shiftLeft]
            by_cases h1 : pos ≤ t
            · by_cases h2 : t < 64
              · simp [h1, h2]
              · simp [h1, h2]
            · simp [h1]
          have hmergedLt : merged < 2 ^ 64 := by
            rw [hmergeddef]
            apply Nat.or_lt_two_pow
            · rw [hlast]
              exact wordAt_lt b.words hlt _
            · exact Nat.mod_lt _ (by positivity)
          have hmergedTailBit : ∀ t, pos + n ≤ t → t < 64 →
              merged.testBit t = false := by
            intro t ht1 ht2
            rw [hmergedBit t]
            have hfirst : (wordAt b.words (b.words.length - 1)).testBit t = false := by
              have := htail (64 * (b.words.length - 1) + t)
                (by omega)
              rw [bitAtWords_eq_testBit _ _ _ ht2] at this
              exact this
            rw [hfirst, hmaskedHigh (t - pos) (by omega)]
            simp
          have hmergedOldBit : ∀ t, t < pos →
              merged.testBit t = (wordAt b.words (b.words.length - 1)).testBit t := by
            intro t ht
            rw [hmergedBit t, decide_eq_false (by omega : ¬pos ≤ t)]
            simp
          have hmergedNewBit : ∀ i, i < n → pos + i < 64 →
              merged.testBit (pos + i) = v.testBit i := by
            intro i hi h64
            rw [hmergedBit (pos + i)]
            have hfirst : (wordAt b.words (b.words.length - 1)).testBit (pos + i) = false := by
              have := htail (64 * (b.words.length - 1) + (pos + i)) (by omega)
              rw [bitAtWords_eq_testBit _ _ _ h64] at this
              exact this
            rw [hfirst, decide_eq_true (by omega : pos ≤ pos + i),
              decide_eq_true h64, show pos + i - pos = i by omega, hmaskedBit i hi]
            simp
          by_cases hover : 64 - pos < n
          · -- spill into a fresh word
            set overflow := masked >>> (64 - pos) with hoverdef
            have hoverBit : ∀ t, overflow.testBit t = masked.testBit (64 - pos + t) := by
              intro t
              rw [hoverdef, Nat.testBit_shiftRight]
            refine ⟨⟨(b.words.dropLast ++ [merged]) ++ [overflow], b.len + n⟩,
              ?_, rfl, ?_, ?_, ?_, ?_, ?_⟩
            · unfold push_bits
              rw [if_neg (by omega), if_neg hz]
              simp only [if_neg hp, hmask]
              rw [if_pos (by omega : 64 - b.len % 64 < n)]
            · simp only [List.length_append, List.length_singleton, List.length_dropLast]
              omega
            · intro j hj
              rw [wordAt_append_lt _ _ j
                  (by simp only [List.length_append, List.length_singleton,
                    List.length_dropLast]; omega),
                wordAt_dropLast_append b.words hne _ j, if_neg (by omega)]
            · refine ⟨?_, ?_, ?_⟩
              · dsimp only
                simp only [List.length_append, List.length_singleton, List.length_dropLast]
                omega
              · intro w hw
                dsimp only at hw
                rcases List.mem_append.mp hw with h | h
                · rcases List.mem_append.mp h with h2 | h2
                  · exact hlt w (List.mem_of_mem_dropLast h2)
                  · rw [List.mem_singleton.mp h2]
                    exact hmergedLt
                · rw [List.mem_singleton.mp h]
                  rw [hoverdef]
                  have hshr : masked >>> (64 - pos) ≤ masked := by
                    rw [Nat.shiftRight_eq_div_pow]
                    exact Nat.div_le_self _ _
                  exact lt_of_le_of_lt hshr
                    (lt_of_lt_of_le hmaskedLt (Nat.pow_le_pow_right (by omega) hn))
              · intro q hq1 hq2
                dsimp only at hq1 hq2
                show bitAtWords ((b.words.dropLast ++ [merged]) ++ [overflow]) q = false
                simp only [List.length_append, List.length_singleton,
                  List.length_dropLast] at hq1
                unfold bitAtWords
                rcases Nat.lt_or_ge (q / 64) b.words.length with hdlt | hdge
                · exfalso
                  omega
                · rw [wordAt_append_ge _ _ _
                    (by simp only [List.length_append, List.length_singleton,
                      List.length_dropLast]; omega)]
                  have hdeq : q / 64 = b.words.length := by omega
                  rw [show q / 64 - (b.words.dropLast ++ [merged]).length = 0 by
                    simp only [List.length_append, List.length_singleton,
                      List.length_dropLast]; omega]
                  show overflow.testBit (q % 64) = false
                  rw [hoverBit]
                  apply hmaskedHigh
                  omega
            · intro i hi
              show bitAtWords ((b.words.dropLast ++ [merged]) ++ [overflow]) (b.len + i)
                = v.testBit i
              unfold bitAtWords
              by_cases hcross : pos + i < 64
              · have hdeq : (b.len + i) / 64 = b.words.length - 1 := by omega
                rw [hdeq, wordAt_append_lt _ _ _
                    (by simp only [List.length_append, List.length_singleton,
                      List.length_dropLast]; omega),
                  wordAt_dropLast_append b.words hne _ _, if_pos rfl]
                show merged.testBit ((b.len + i) % 64) = v.testBit i
                rw [show (b.len + i) % 64 = pos + i by omega]
                exact hmergedNewBit i hi hcross
              · have hdeq : (b.len + i) / 64 = b.words.length := by omega
                rw [hdeq, wordAt_append_ge _ _ _
                    (by simp only [List.length_append, List.length_singleton,
                      List.length_dropLast]; omega),
                  show b.words.length - (b.words.dropLast ++ [merged]).length = 0 by
                    simp only [List.length_append, List.length_singleton,
                      List.length_dropLast]; omega]
                show overflow.testBit ((b.len + i) % 64) = v.testBit i
                rw [hoverBit, show 64 - pos + (b.len + i) % 64 = i by omega]
                exact hmaskedBit i hi
            · intro j hj
              show bitAtWords ((b.words.dropLast ++ [merged]) ++ [overflow]) j
                = bitAtWords b.words j
              unfold bitAtWords
              have hdle : j / 64 ≤ b.words.length - 1 := by omega
              rw [wordAt_append_lt _ _ _
                  (by simp only [List.length_append, List.length_singleton,
                    List.length_dropLast]; omega),
                wordAt_dropLast_append b.words hne _ _]
              by_cases hdeq : j / 64 = b.words.length - 1
              · rw [if_pos hdeq, hdeq]
                exact hmergedOldBit (j % 64) (by omega)
              · rw [if_neg hdeq]
          · -- all n bits fit in the last word
            refine ⟨⟨b.words.dropLast ++ [merged], b.len + n⟩, ?_, rfl, ?_, ?_, ?_, ?_, ?_⟩
            · unfold push_bits
              rw [if_neg (by omega), if_neg hz]
              simp only [if_neg hp, hmask]
              rw [if_neg (by omega : ¬(64 - b.len % 64 < n))]
            · simp only [List.length_append, List.length_singleton, List.length_dropLast]
              omega
            · intro j hj
              rw [wordAt_dropLast_append b.words hne _ j, if_neg (by omega)]
            · refine ⟨?_, ?_, ?_⟩
              · dsimp only
                simp only [List.length_append, List.length_singleton, List.length_dropLast]
                omega
              · intro w hw
                dsimp only at hw
                rcases List.mem_append.mp hw with h | h
                · exact hlt w (List.mem_of_mem_dropLast h)
                · rw [List.mem_singleton.mp h]
                  exact hmergedLt
              · intro q hq1 hq2
                dsimp only at hq1 hq2
                show bitAtWords (b.words.dropLast ++ [merged]) q = false
                simp only [List.length_append, List.length_singleton,
                  List.length_dropLast] at hq1
                unfold bitAtWords
                rw [wordAt_dropLast_append b.words hne _ _]
                have hdle : q / 64 ≤ b.words.length - 1 := by omega
                by_cases hdeq : q / 64 = b.words.length - 1
                · rw [if_pos hdeq]
                  exact hmergedTailBit (q % 64) (by omega) (by omega)
                · rw [if_neg hdeq]
                  have := htail0 q (by omega) (by omega)
                  unfold bitAtWords at this
                  exact this
            · intro i hi
              show bitAtWords (b.words.dropLast ++ [merged]) (b.len + i) = v.testBit i
              unfold bitAtWords
              have hdeq : (b.len + i) / 64 = b.words.length - 1 := by omega
              rw [hdeq, wordAt_dropLast_append b.words hne _ _, if_pos rfl]
              show merged.testBit ((b.len + i) % 64) = v.testBit i
              rw [show (b.len + i) % 64 = pos + i by omega]
              exact hmergedNewBit i hi (by omega)
            · intro j hj
              show bitAtWords (b.words.dropLast ++ [merged]) j = bitAtWords b.words j
              unfold bitAtWords
              rw [wordAt_dropLast_append b.words hne _ _]
              by_cases hdeq : j / 64 = b.words.length - 1
              · rw [if_pos hdeq, hdeq]
                exact hmergedOldBit (j % 64) (by omega)
              · rw [if_neg hdeq]
  · decide

/-- C5 witness: pushing two bits onto an empty builder. -/
theorem C5_push_bits_witness :
    ∃ b2, push_bits BitVectorBuilder.new 2 2 = some b2 ∧
      b2.len = BitVectorBuilder.new.len + 2 := by
  obtain ⟨b2, hpush, hlen, _⟩ :=
    (C5_push_bits.1 BitVectorBuilder.new (by decide) 2 2).2 (by omega)
  exact ⟨b2, hpush, hlen⟩


/-! ### bitLen / needed_bits lemmas -/

theorem bitLenF_congr :
    ∀ f g n : Nat, n ≤ f → n ≤ g → bitLenF f n = bitLenF g n := by
  intro f
  induction f with
  | zero =>
    intro g n hf hg
    have hn : n = 0 := by omega
    subst hn
    cases g <;> simp [bitLenF]
  | succ f ih =>
    intro g n hf hg
    cases g with
    | zero =>
      have hn : n = 0 := by omega
      subst hn
      simp [bitLenF]
    | succ g =>
      by_cases hn : n = 0
      · subst hn; simp [bitLenF]
      · simp only [bitLenF, hn, if_false]
        rw [ih g (n / 2) (by omega) (by omega)]

theorem bitLen_zero : bitLen 0 = 0 := rfl

theorem bitLen_unfold (n : Nat) (hn : n ≠ 0) : bitLen n = bitLen (n / 2) + 1 := by
  cases hc : n with
  | zero => exact absurd hc hn
  | succ m =>
    show bitLenF (m + 1) (m + 1) = bitLen ((m + 1) / 2) + 1
    simp only [bitLenF, Nat.succ_ne_zero, if_false]
    rw [bitLenF_congr m ((m + 1) / 2) ((m + 1) / 2) (by omega) (by omega)]
    rfl

theorem lt_two_pow_bitLen : ∀ x : Nat, x < 2 ^ bitLen x := by
  intro x
  induction x using Nat.strong_induction_on with
  | _ x ih =>
    by_cases hx : x = 0
    · subst hx
      simp [bitLen_zero]
    · rw [bitLen_unfold x hx]
      have hdiv := ih (x / 2) (Nat.div_lt_self (Nat.pos_of_ne_zero hx) (by omega))
      rw [pow_succ]
      omega

theorem bitLen_le_of_lt : ∀ x k : Nat, x < 2 ^ k → bitLen x ≤ k := by
  intro x
  induction x using Nat.strong_induction_on with
  | _ x ih =>
    intro k hk
    by_cases hx : x = 0
    · subst hx
      simp [bitLen_zero]
    · rw [bitLen_unfold x hx]
      have hkpos : 1 ≤ k := by
        by_contra h
        have hk0 : k = 0 := by omega
        rw [hk0] at hk
        simp at hk
        omega
      have hhalf : x / 2 < 2 ^ (k - 1) := by
        have hexp : (2 : Nat) ^ k = 2 ^ (k - 1) * 2 := by
          rw [← pow_succ]
          congr 1
          omega
        rw [hexp] at hk
        omega
      have := ih (x / 2) (Nat.div_lt_self (Nat.pos_of_ne_zero hx) (by omega)) (k - 1) hhalf
      omega

theorem needed_bits_pos (x : Nat) : 1 ≤ needed_bits x := by
  unfold needed_bits
  by_cases hx : x = 0
  · simp [hx]
  · rw [if_neg hx, bitLen_unfold x hx]
    omega

theorem lt_two_pow_needed_bits (x : Nat) : x < 2 ^ needed_bits x := by
  unfold needed_bits
  by_cases hx : x = 0
  · simp [hx]
  · rw [if_neg hx]
    exact lt_two_pow_bitLen x

theorem needed_bits_le (x k : Nat) (hk : 1 ≤ k) (hx : x < 2 ^ k) :
    needed_bits x ≤ k := by
  unfold needed_bits
  by_cases h0 : x = 0
  · simp [h0]
    omega
  · rw [if_neg h0]
    exact bitLen_le_of_lt x k hx

/-! ### CompactVector (`compact_vector.rs`) -/

/-- Mutable builder for `CompactVector`
(`CompactVectorBuilder`). -/
structure CompactVectorBuilder where
  chunks : BitVectorBuilder
  len : Nat
  width : Nat
deriving Repr, DecidableEq

/-- Creates an empty builder (`CompactVectorBuilder::new`); `none` models
the width-range error. -/
def CompactVectorBuilder.new (width : Nat) : Option CompactVectorBuilder :=
  if width < 1 ∨ 64 < width then none
  else some ⟨BitVectorBuilder.new, 0, width⟩

/-- Pushes integer `val` (`CompactVectorBuilder::push_int`); `none` models
the does-not-fit error and any `push_bits` error. -/
def push_int (cvb : CompactVectorBuilder) (val : Nat) : Option CompactVectorBuilder :=
  if cvb.width ≠ 64 ∧ val >>> cvb.width ≠ 0 then none
  else (push_bits cvb.chunks val cvb.width).map (fun c => ⟨c, cvb.len + 1, cvb.width⟩)

/-- Immutable compact vector (`CompactVector`); its `chunks` field is the
`BitVector<NoIndex>` payload, of which only the data matters here. -/
structure CompactVector where
  chunks : BitVectorData
  len : Nat
  width : Nat
deriving Repr, DecidableEq

/-- Finalizes the builder (`CompactVectorBuilder::freeze`). -/
def CompactVectorBuilder.freeze (cvb : CompactVectorBuilder) : CompactVector :=
  ⟨into_data cvb.chunks, cvb.len, cvb.width⟩

/-- The `Default` instance of `CompactVector`: an empty frozen builder with
`len = 0` and `width = 0`. -/
def CompactVector.dflt : CompactVector :=
  ⟨into_data BitVectorBuilder.new, 0, 0⟩

/-- Returns the `pos`-th integer (`CompactVector::get_int`): reads `width`
bits at `pos * width`. -/
def get_int (cv : CompactVector) (pos : Nat) : Option Nat :=
  cv.chunks.get_bits (pos * cv.width) cv.width

/-- Creates a vector from a slice (`CompactVector::from_slice`): empty input
yields the default vector; otherwise the width is fitted to the maximum
value and all values are pushed. -/
def from_slice (vals : List Nat) : Option CompactVector :=
  if vals.isEmpty then some CompactVector.dflt
  else
    let max_int := vals.foldl (fun a x => max a x) 0
    match CompactVectorBuilder.new (needed_bits max_int) with
    | none => none
    | some builder => (vals.foldlM push_int builder).map CompactVectorBuilder.freeze

/-- All integers in order (`CompactVector::iter` / `to_vec`): the iterator
yields `access(pos).unwrap()` for `pos < len`. -/
def to_vec (cv : CompactVector) : List Nat :=
  (List.range cv.len).map (fun p => (get_int cv p).getD 0)

/-! ### Claim C10: the empty CompactVector -/

/-- C10: `from_slice` of the empty slice returns the default vector with
`len = 0` and `width = 0`, and on it `get_int(p)` returns `some 0` for
every `p` - including out-of-bounds positions - because the request
degenerates to `get_bits(0, 0)`; it never returns `none`. -/
theorem C10_empty_from_slice :
    from_slice [] = some CompactVector.dflt ∧
    CompactVector.dflt.len = 0 ∧ CompactVector.dflt.width = 0 ∧
    ∀ p : Nat, get_int CompactVector.dflt p = some 0 := by
  refine ⟨rfl, rfl, rfl, ?_⟩
  intro p
  show BitVectorData.get_bits (into_data BitVectorBuilder.new) (p * 0) 0 = some 0
  unfold BitVectorData.get_bits
  rw [if_neg (by simp [into_data, BitVectorBuilder.new]), if_pos rfl]


/-! ### Claim C8: CompactVector round-trip -/

/-- CompactVector builder invariant: well-formed chunks holding exactly
`len * width` bits. -/
def CWf (cvb : CompactVectorBuilder) : Prop :=
  BWf cvb.chunks ∧ cvb.chunks.len = cvb.len * cvb.width

theorem BWf_Wf (b : BitVectorBuilder) (hb : BWf b) : Wf (into_data b) := by
  obtain ⟨h1, h2, h3⟩ := hb
  refine ⟨?_, h2⟩
  show (b.len + 63) / 64 ≤ b.words.length
  omega

theorem push_int_spec (cvb : CompactVectorBuilder) (h : CWf cvb) (v : Nat)
    (_hw1 : 1 ≤ cvb.width) (hw2 : cvb.width ≤ 64) (hfit : v < 2 ^ cvb.width) :
    ∃ cvb2, push_int cvb v = some cvb2 ∧ cvb2.width = cvb.width ∧
      cvb2.len = cvb.len + 1 ∧
      cvb2.chunks.len = cvb.chunks.len + cvb.width ∧ CWf cvb2 ∧
      (∀ j, j < cvb.chunks.len →
        bitAtWords cvb2.chunks.words j = bitAtWords cvb.chunks.words j) ∧
      (∀ i, i < cvb.width →
        bitAtWords cvb2.chunks.words (cvb.chunks.len + i) = v.testBit i) := by
  have hshift : v >>> cvb.width = 0 := by
    rw [Nat.shiftRight_eq_div_pow]
    exact Nat.div_eq_of_lt hfit
  have hcond : ¬(cvb.width ≠ 64 ∧ v >>> cvb.width ≠ 0) := by
    simp [hshift]
  obtain ⟨b2, hpush, hlen2, _, _, hbwf2, hnew, hold⟩ :=
    (C5_push_bits.1 cvb.chunks h.1 v cvb.width).2 hw2
  refine ⟨⟨b2, cvb.len + 1, cvb.width⟩, ?_, rfl, rfl, ?_, ⟨hbwf2, ?_⟩, ?_, ?_⟩
  · unfold push_int
    rw [if_neg hcond, hpush]
    rfl
  · show b2.len = cvb.chunks.len + cvb.width
    omega
  · show b2.len = (cvb.len + 1) * cvb.width
    rw [hlen2, h.2, Nat.succ_mul]
  · intro j hj
    exact hold j (by omega)
  · intro i hi
    exact hnew i hi

theorem push_int_fold (width : Nat) (hw1 : 1 ≤ width) (hw2 : width ≤ 64) :
    ∀ (xs : List Nat) (cvb : CompactVectorBuilder), CWf cvb → cvb.width = width →
      (∀ x ∈ xs, x < 2 ^ width) →
      ∃ cvb2, xs.foldlM push_int cvb = some cvb2 ∧ cvb2.width = width ∧
        cvb2.len = cvb.len + xs.length ∧
        cvb2.chunks.len = cvb.chunks.len + xs.length * width ∧ CWf cvb2 ∧
        (∀ j, j < cvb.chunks.len →
          bitAtWords cvb2.chunks.words j = bitAtWords cvb.chunks.words j) ∧
        (∀ t, t < xs.length → ∀ i, i < width →
          bitAtWords cvb2.chunks.words (cvb.chunks.len + t * width + i) =
            (xs.getD t 0).testBit i) := by
  intro xs
  induction xs with
  | nil =>
    intro cvb h hveq hall
    exact ⟨cvb, by simp, hveq, by simp, by simp, h, fun j _ => rfl,
      fun t ht => absurd ht (by simp)⟩
  | cons x xs ih =>
    intro cvb h hveq hall
    obtain ⟨cvb1, hpush, hweq1, hlen1, hclen1, hcwf1, hold1, hnew1⟩ :=
      push_int_spec cvb h x (by omega) (by omega) (by rw [hveq]; exact hall x (by simp))
    obtain ⟨cvb2, hfold, hweq2, hlen2, hclen2, hcwf2, hold2, hnew2⟩ :=
      ih cvb1 hcwf1 (by omega) (fun y hy => hall y (by simp [hy]))
    have hchain : (x :: xs).foldlM push_int cvb = xs.foldlM push_int cvb1 := by
      rw [List.foldlM_cons, hpush]
      rfl
    have hcvb1w : cvb1.chunks.len = cvb.chunks.len + width := by omega
    refine ⟨cvb2, by rw [hchain]; exact hfold, hweq2,
      by simp only [List.length_cons]; omega, ?_, hcwf2, ?_, ?_⟩
    · rw [hclen2, hcvb1w]
      simp only [List.length_cons, Nat.succ_mul]
      ring_nf
    · intro j hj
      rw [hold2 j (by omega), hold1 j hj]
    · intro t ht i hi
      cases t with
      | zero =>
        have hpos : cvb.chunks.len + 0 * width + i < cvb1.chunks.len := by
          simp only [Nat.zero_mul, Nat.add_zero]
          omega
        rw [hold2 _ hpos]
        simp only [Nat.zero_mul, Nat.add_zero]
        have := hnew1 i (by omega)
        rw [this]
        rfl
      | succ t =>
        have harith : cvb.chunks.len + (t + 1) * width + i =
            cvb1.chunks.len + t * width + i := by
          rw [hcvb1w, Nat.succ_mul]
          ring
        rw [harith, hnew2 t (by simp at ht; omega) i hi]
        rfl

theorem foldl_max_ge (xs : List Nat) :
    ∀ a, a ≤ xs.foldl (fun u x => max u x) a ∧
      ∀ x ∈ xs, x ≤ xs.foldl (fun u x => max u x) a := by
  induction xs with
  | nil => intro a; exact ⟨le_refl a, fun x hx => absurd hx (by simp)⟩
  | cons y ys ih =>
    intro a
    obtain ⟨h1, h2⟩ := ih (max a y)
    refine ⟨le_trans (le_max_left a y) h1, ?_⟩
    intro x hx
    rcases List.mem_cons.mp hx with hxy | hxy
    · subst hxy
      exact le_trans (le_max_right a x) h1
    · exact h2 x hxy

theorem foldl_max_lt (c : Nat) (xs : List Nat) :
    ∀ a, a < c → (∀ x ∈ xs, x < c) → xs.foldl (fun u x => max u x) a < c := by
  induction xs with
  | nil => intro a ha _; exact ha
  | cons y ys ih =>
    intro a ha hall
    apply ih (max a y) _ (fun x hx => hall x (by simp [hx]))
    exact max_lt ha (hall y (by simp))

/-- C8: `from_slice` succeeds on every slice of `usize` values and the
result round-trips: `len` matches, the iterator yields exactly the input,
`get_int(p)` is `some v[p]` in range and `none` just past the end for
non-empty input, and the chosen width is `needed_bits` of the maximum. -/
theorem C8_from_slice (vals : List Nat) (hvals : ∀ v ∈ vals, v < 2 ^ 64) :
    ∃ cv, from_slice vals = some cv ∧ cv.len = vals.length ∧ to_vec cv = vals ∧
      (∀ p, p < vals.length → get_int cv p = some (vals.getD p 0)) ∧
      (vals ≠ [] →
        get_int cv vals.length = none ∧
        cv.width = needed_bits (vals.foldl (fun a x => max a x) 0)) := by
  by_cases hemp : vals = []
  · subst hemp
    exact ⟨CompactVector.dflt, rfl, rfl, rfl, fun p hp => absurd hp (by simp),
      fun h => absurd rfl h⟩
  · set max_int := vals.foldl (fun a x => max a x) 0 with hmaxdef
    have hmax_ge : ∀ v ∈ vals, v ≤ max_int := (foldl_max_ge vals 0).2
    have hmax_lt : max_int < 2 ^ 64 := foldl_max_lt (2 ^ 64) vals 0 (by positivity) hvals
    set w := needed_bits max_int with hwdef
    have hw1 : 1 ≤ w := needed_bits_pos _
    have hw64 : w ≤ 64 := needed_bits_le _ 64 (by omega) hmax_lt
    have hfits : ∀ v ∈ vals, v < 2 ^ w := fun v hv =>
      lt_of_le_of_lt (hmax_ge v hv) (lt_two_pow_needed_bits _)
    have hnewb : CompactVectorBuilder.new w = some ⟨BitVectorBuilder.new, 0, w⟩ := by
      unfold CompactVectorBuilder.new
      rw [if_neg (by omega)]
    obtain ⟨cvb2, hfold, hweq, hlen, hclen, hcwf, _, hbits⟩ :=
      push_int_fold w hw1 hw64 vals ⟨BitVectorBuilder.new, 0, w⟩
        ⟨BWf_new, by simp [BitVectorBuilder.new]⟩ rfl hfits
    have hnl : BitVectorBuilder.new.len = 0 := rfl
    dsimp only at hlen hclen hbits
    rw [hnl, Nat.zero_add] at hclen
    rw [Nat.zero_add] at hlen
    simp only [hnl, Nat.zero_add] at hbits
    have hstep1 : from_slice vals =
        match CompactVectorBuilder.new
            (needed_bits (vals.foldl (fun a x => max a x) 0)) with
        | none => none
        | some builder =>
          (vals.foldlM push_int builder).map CompactVectorBuilder.freeze := by
      unfold from_slice
      rw [if_neg (by simpa using hemp)]
    have hfs : from_slice vals = some cvb2.freeze := by
      rw [hstep1, ← hmaxdef, ← hwdef, hnewb]
      show (vals.foldlM push_int ⟨BitVectorBuilder.new, 0, w⟩).map
        CompactVectorBuilder.freeze = _
      rw [hfold]
      rfl
    have hdlen : (into_data cvb2.chunks).len = vals.length * w := by
      show cvb2.chunks.len = vals.length * w
      omega
    have hWfd : Wf (into_data cvb2.chunks) := BWf_Wf _ hcwf.1
    have hget : ∀ p, p < vals.length → get_int cvb2.freeze p = some (vals.getD p 0) := by
      intro p hp
      show (into_data cvb2.chunks).get_bits (p * cvb2.freeze.width) cvb2.freeze.width
        = some (vals.getD p 0)
      have hfw : cvb2.freeze.width = w := hweq
      rw [hfw]
      have hbound : p * w + w ≤ (into_data cvb2.chunks).len := by
        rw [hdlen, ← Nat.succ_mul]
        exact Nat.mul_le_mul_right w (by omega)
      obtain ⟨x, hx, hxlt, hxbits⟩ :=
        (C4_get_bits (into_data cvb2.chunks) hWfd (p * w) w).2.2 hw64 hbound
      rw [hx]
      congr 1
      apply Nat.eq_of_testBit_eq
      intro i
      rcases Nat.lt_or_ge i w with hi | hi
      · rw [hxbits i hi]
        show bitAtWords cvb2.chunks.words (p * w + i) = (vals.getD p 0).testBit i
        exact hbits p hp i hi
      · have hx0 : x.testBit i = false :=
          Nat.testBit_lt_two_pow
            (lt_of_lt_of_le hxlt (Nat.pow_le_pow_right (by omega) hi))
        have hv0 : (vals.getD p 0).testBit i = false := by
          apply Nat.testBit_lt_two_pow
          have hvin : vals.getD p 0 ∈ vals := by
            rw [List.getD_eq_getElem?_getD, List.getElem?_eq_getElem hp]
            exact List.getElem_mem hp
          exact lt_of_lt_of_le (hfits _ hvin) (Nat.pow_le_pow_right (by omega) hi)
        rw [hx0, hv0]
    refine ⟨cvb2.freeze, hfs, ?_, ?_, hget, ?_⟩
    · show cvb2.len = vals.length
      omega
    · unfold to_vec
      apply List.ext_getElem
      · simp
        show cvb2.len = vals.length
        omega
      · intro i h1 h2
        simp only [List.getElem_map, List.getElem_range]
        rw [hget i (by simpa using h2)]
        rw [List.getD_eq_getElem?_getD, List.getElem?_eq_getElem h2]
        rfl
    · intro _
      constructor
      · show (into_data cvb2.chunks).get_bits (vals.length * cvb2.freeze.width)
          cvb2.freeze.width = none
        have hfw : cvb2.freeze.width = w := hweq
        rw [hfw]
        unfold BitVectorData.get_bits
        rw [if_pos (by rw [hdlen]; omega)]
      · exact hweq

/-- C8 witness: the spec's concrete scenario `[5, 256, 0]` (width 9). -/
theorem C8_from_slice_witness :
    ∃ cv, from_slice [5, 256, 0] = some cv ∧ cv.len = 3 ∧
      to_vec cv = [5, 256, 0] ∧
      (∀ p, p < 3 → get_int cv p = some ([5, 256, 0].getD p 0)) ∧
      ([5, 256, 0] ≠ ([] : List Nat) →
        get_int cv 3 = none ∧
        cv.width = needed_bits ([5, 256, 0].foldl (fun a x => max a x) 0)) :=
  C8_from_slice [5, 256, 0] (by decide)


/-! ### Claim C7: from_bytes -/

/-- Modelled from the spec: the external byte buffer (`anybytes::Bytes`) of
the out-of-scope byte-source abstraction.  `content` is the byte sequence
and `misalign` the pointer address modulo the word alignment
(`bytes.ptr % alignof(Word)`, spec section 6.2). -/
structure MBytes where
  content : List Nat
  misalign : Nat
deriving Repr, DecidableEq

/-- Little-endian value of a byte list (first byte is least significant). -/
def wordOfBytes : List Nat → Nat
  | [] => 0
  | b :: rest => b + 256 * wordOfBytes rest

/-- Groups a byte list into 64-bit little-endian words, eight bytes each
(an incomplete trailing group cannot occur under the length guard). -/
def toWords : List Nat → List Nat
  | b0 :: b1 :: b2 :: b3 :: b4 :: b5 :: b6 :: b7 :: rest =>
      wordOfBytes [b0, b1, b2, b3, b4, b5, b6, b7] :: toWords rest
  | _ => []

/-- Modelled from the spec: `bytes.view::<[usize]>()` of the external
`anybytes` crate.  Per spec section 6.2 the only ingest requirements are
word alignment of the pointer and that the bytes form whole words; on
success the view reinterprets the bytes as little-endian words with zero
copy. -/
def viewWords (b : MBytes) : Option (List Nat) :=
  if b.misalign = 0 ∧ b.content.length % 8 = 0 then some (toWords b.content)
  else none

/-- Reconstructs data from zero-copy bytes (`BitVectorData::from_bytes`):
the word view plus the given logical length, with no validation of the
buffer size against `len`. -/
def from_bytes (len : Nat) (b : MBytes) : Option BitVectorData :=
  (viewWords b).map (fun ws => ⟨ws, len⟩)

theorem testBit_byte_add (b v t : Nat) (hb : b < 256) :
    (b + 256 * v).testBit t = if t < 8 then b.testBit t else v.testBit (t - 8) := by
  have h : b + 256 * v = 2 ^ 8 * v + b := by ring
  rw [h, Nat.testBit_mul_pow_two_add v (by norm_num; omega) t]

theorem wordOfBytes_testBit :
    ∀ (l : List Nat), (∀ x ∈ l, x < 256) → ∀ t,
      (wordOfBytes l).testBit t =
        if t / 8 < l.length then (l.getD (t / 8) 0).testBit (t % 8) else false := by
  intro l
  induction l with
  | nil =>
    intro _ t
    simp [wordOfBytes, Nat.zero_testBit]
  | cons b rest ih =>
    intro hall t
    show (b + 256 * wordOfBytes rest).testBit t = _
    rw [testBit_byte_add _ _ t (hall b (by simp))]
    by_cases ht : t < 8
    · rw [if_pos ht, if_pos (by simp; omega)]
      have h1 : t / 8 = 0 := by omega
      have h2 : t % 8 = t := by omega
      rw [h1, h2]
      rfl
    · rw [if_neg ht, ih (fun x hx => hall x (by simp [hx])) (t - 8)]
      have h1 : (t - 8) / 8 = t / 8 - 1 := by omega
      have h2 : (t - 8) % 8 = t % 8 := by omega
      have h3 : 1 ≤ t / 8 := by omega
      rw [h1, h2]
      by_cases hlt : t / 8 - 1 < rest.length
      · rw [if_pos hlt, if_pos (by simp; omega)]
        rw [show t / 8 = (t / 8 - 1) + 1 by omega]
        rfl
      · rw [if_neg hlt, if_neg (by simp; omega)]

theorem wordOfBytes_lt :
    ∀ (l : List Nat), (∀ x ∈ l, x < 256) → wordOfBytes l < 2 ^ (8 * l.length) := by
  intro l
  induction l with
  | nil => simp [wordOfBytes]
  | cons b rest ih =>
    intro hall
    show b + 256 * wordOfBytes rest < 2 ^ (8 * (rest.length + 1))
    have h1 := ih (fun x hx => hall x (by simp [hx]))
    have h2 := hall b (by simp)
    have h3 : (2 : Nat) ^ (8 * (rest.length + 1)) = 256 * 2 ^ (8 * rest.length) := by
      rw [show 8 * (rest.length + 1) = 8 * rest.length + 8 by ring, pow_add]
      norm_num
      ring
    rw [h3]
    omega

theorem toWords_length :
    ∀ l : List Nat, (toWords l).length = l.length / 8 := by
  intro l
  induction l using toWords.induct with
  | case1 b0 b1 b2 b3 b4 b5 b6 b7 rest ih =>
    show (toWords (b0 :: b1 :: b2 :: b3 :: b4 :: b5 :: b6 :: b7 :: rest)).length = _
    rw [toWords]
    simp only [List.length_cons]
    rw [ih]
    omega
  | case2 l hl =>
    rw [toWords.eq_def]
    split
    · rename_i b0 b1 b2 b3 b4 b5 b6 b7 rest
      exact absurd rfl (hl b0 b1 b2 b3 b4 b5 b6 b7 rest)
    · rename_i hne
      cases l with
      | nil => simp
      | cons a as =>
        cases as with
        | nil => simp
        | cons a2 as2 =>
          cases as2 with
          | nil => simp
          | cons a3 as3 =>
            cases as3 with
            | nil => simp
            | cons a4 as4 =>
              cases as4 with
              | nil => simp
              | cons a5 as5 =>
                cases as5 with
                | nil => simp
                | cons a6 as6 =>
                  cases as6 with
                  | nil => simp
                  | cons a7 as7 =>
                    cases as7 with
                    | nil => simp
                    | cons a8 as8 =>
                      exact absurd rfl (hl a a2 a3 a4 a5 a6 a7 a8 as8)


theorem toWords_cons8 (b0 b1 b2 b3 b4 b5 b6 b7 : Nat) (rest : List Nat) :
    toWords (b0 :: b1 :: b2 :: b3 :: b4 :: b5 :: b6 :: b7 :: rest) =
      wordOfBytes [b0, b1, b2, b3, b4, b5, b6, b7] :: toWords rest := rfl

theorem toWords_small (l : List Nat) (h : l.length < 8) : toWords l = [] := by
  rw [toWords.eq_def]
  split
  · rename_i b0 b1 b2 b3 b4 b5 b6 b7 rest
    simp at h
    exact absurd h (by omega)
  · rfl

theorem exists_cons8 (l : List Nat) (h : 8 ≤ l.length) :
    ∃ b0 b1 b2 b3 b4 b5 b6 b7 rest,
      l = b0 :: b1 :: b2 :: b3 :: b4 :: b5 :: b6 :: b7 :: rest := by
  cases l with
  | nil => simp at h
  | cons a0 l0 =>
    cases l0 with
    | nil => simp at h
    | cons a1 l1 =>
      cases l1 with
      | nil => simp at h
      | cons a2 l2 =>
        cases l2 with
        | nil => simp at h
        | cons a3 l3 =>
          cases l3 with
          | nil => simp at h
          | cons a4 l4 =>
            cases l4 with
            | nil => simp at h
            | cons a5 l5 =>
              cases l5 with
              | nil => simp at h
              | cons a6 l6 =>
                cases l6 with
                | nil => simp at h
                | cons a7 l7 => exact ⟨a0, a1, a2, a3, a4, a5, a6, a7, l7, rfl⟩

theorem toWords_mem_lt_aux :
    ∀ (n : Nat) (l : List Nat), l.length = n → (∀ x ∈ l, x < 256) →
      ∀ w ∈ toWords l, w < 2 ^ 64 := by
  intro n
  induction n using Nat.strong_induction_on with
  | _ n ih =>
    intro l hlen hb w hw
    rcases Nat.lt_or_ge l.length 8 with h8 | h8
    · rw [toWords_small l h8] at hw
      simp at hw
    · obtain ⟨b0, b1, b2, b3, b4, b5, b6, b7, rest, hleq⟩ := exists_cons8 l h8
      subst hleq
      rw [toWords_cons8] at hw
      rcases List.mem_cons.mp hw with hww | hww
    
      · subst hww
        have h0 := hb b0 (by simp)
        have h1 := hb b1 (by simp)
        have h2 := hb b2 (by simp)
        have h3 := hb b3 (by simp)
        have h4 := hb b4 (by simp)
        have h5 := hb b5 (by simp)
        have h6 := hb b6 (by simp)
        have h7 := hb b7 (by simp)
        show wordOfBytes [b0, b1, b2, b3, b4, b5, b6, b7] < 2 ^ 64
        simp only [wordOfBytes]
        have hpow : (2 : Nat) ^ 64 = 18446744073709551616 := by norm_num
        rw [hpow]
        omega
      · exact ih rest.length (by subst hlen; simp; omega) rest rfl
          (fun x hx => hb x (by simp [hx])) w hww

theorem toWords_mem_lt (l : List Nat) (hb : ∀ x ∈ l, x < 256) :
    ∀ w ∈ toWords l, w < 2 ^ 64 :=
  toWords_mem_lt_aux l.length l rfl hb

theorem bitAtWords_cons_ge (w : Nat) (tws : List Nat) (p : Nat) (hp : 64 ≤ p) :
    bitAtWords (w :: tws) p = bitAtWords tws (p - 64) := by
  unfold bitAtWords
  have h1 : (p - 64) / 64 = p / 64 - 1 := by omega
  have h2 : (p - 64) % 64 = p % 64 := by omega
  have h3 : 1 ≤ p / 64 := by omega
  rw [h1, h2]
  congr 1
  unfold wordAt
  rw [show p / 64 = (p / 64 - 1) + 1 by omega]
  rfl

theorem toWords_bit_aux :
    ∀ (n : Nat) (l : List Nat), l.length = n → (∀ x ∈ l, x < 256) →
      l.length % 8 = 0 → ∀ p, p < 8 * l.length →
        bitAtWords (toWords l) p = (l.getD (p / 8) 0).testBit (p % 8) := by
  intro n
  induction n using Nat.strong_induction_on with
  | _ n ih =>
    intro l hlen hb hmod p hp
    rcases Nat.lt_or_ge l.length 8 with h8 | h8
    · have hnil : l.length = 0 := by omega
      omega
    · obtain ⟨b0, b1, b2, b3, b4, b5, b6, b7, rest, hleq⟩ := exists_cons8 l h8
      subst hleq
      rw [toWords_cons8]
      have h0 := hb b0 (by simp)
      have h1b := hb b1 (by simp)
      have h2b := hb b2 (by simp)
      have h3b := hb b3 (by simp)
      have h4b := hb b4 (by simp)
      have h5b := hb b5 (by simp)
      have h6b := hb b6 (by simp)
      have h7b := hb b7 (by simp)
      have hb8 : ∀ x ∈ [b0, b1, b2, b3, b4, b5, b6, b7], x < 256 := by
        intro x hx
        simp only [List.mem_cons, List.not_mem_nil, or_false] at hx
        rcases hx with h | h | h | h | h | h | h | h <;> subst h <;> assumption
      rcases Nat.lt_or_ge p 64 with hp64 | hp64
      · have hq : p / 64 = 0 := by omega
        have hr : p % 64 = p := by omega
        unfold bitAtWords wordAt
        rw [hq, hr]
        show (wordOfBytes [b0, b1, b2, b3, b4, b5, b6, b7]).testBit p = _
        rw [wordOfBytes_testBit _ hb8 p, if_pos (by simp; omega)]
        have hp8 : p / 8 < 8 := by omega
        congr 1
        interval_cases hpv : p / 8 <;> rfl
      · rw [bitAtWords_cons_ge _ _ p hp64,
          ih rest.length (by subst hlen; simp; omega) rest rfl
            (fun x hx => hb x (by simp [hx]))
            (by simp at hmod ⊢; omega) (p - 64)
            (by simp at hp ⊢; omega)]
        have h1 : (p - 64) / 8 = p / 8 - 8 := by omega
        have h2 : (p - 64) % 8 = p % 8 := by omega
        have h3 : 8 ≤ p / 8 := by omega
        obtain ⟨m, hm⟩ : ∃ m, p / 8 = m + 8 := ⟨p / 8 - 8, by omega⟩
        rw [h1, h2, hm, show m + 8 - 8 = m by omega]
        rfl

theorem toWords_bit (l : List Nat) (hb : ∀ x ∈ l, x < 256) (hmod : l.length % 8 = 0) :
    ∀ p, p < 8 * l.length →
      bitAtWords (toWords l) p = (l.getD (p / 8) 0).testBit (p % 8) :=
  toWords_bit_aux l.length l rfl hb hmod

/-- C7 counterexample: an aligned empty buffer is accepted for `len = 100`
although its byte length 0 is smaller than `⌈100/64⌉ · 8 = 16`; the claimed
size check does not exist in `from_bytes`. -/
theorem C7_counterexample :
    from_bytes 100 ⟨[], 0⟩ = some ⟨[], 100⟩ ∧
    ([] : List Nat).length * 1 < ((100 + 63) / 64) * 8 := by
  constructor
  · rfl
  · decide

/-- C7 (amended): `from_bytes(len, bytes)` fails exactly when the buffer is
misaligned for the word type or its byte length is not a whole number of
words; it performs NO size check against `len`.  On success the data
carries the given logical length `len` over the buffer's little-endian
words: one word per 8 bytes, each a machine word, and bit `p` of the word
buffer is bit `p % 8` of byte `p / 8`. -/
theorem C7_from_bytes (len : Nat) (b : MBytes) (hbytes : ∀ x ∈ b.content, x < 256) :
    (from_bytes len b = none ↔ ¬(b.misalign = 0 ∧ b.content.length % 8 = 0)) ∧
    (∀ d, from_bytes len b = some d →
      d.len = len ∧ d.words.length = b.content.length / 8 ∧
      (∀ w ∈ d.words, w < 2 ^ 64) ∧
      (∀ p, p < 8 * b.content.length →
        bitAtWords d.words p = (b.content.getD (p / 8) 0).testBit (p % 8))) := by
  constructor
  · unfold from_bytes viewWords
    by_cases hc : b.misalign = 0 ∧ b.content.length % 8 = 0
    · rw [if_pos hc]
      simp [hc]
    · rw [if_neg hc]
      simp [hc]
  · intro d hd
    unfold from_bytes viewWords at hd
    by_cases hc : b.misalign = 0 ∧ b.content.length % 8 = 0
    · rw [if_pos hc] at hd
      have hde : d = ⟨toWords b.content, len⟩ := by
        cases hd
        rfl
      subst hde
      refine ⟨rfl, toWords_length b.content, toWords_mem_lt b.content hbytes, ?_⟩
      intro p hp
      exact toWords_bit b.content hbytes hc.2 p hp
    · rw [if_neg hc] at hd
      exact Option.noConfusion hd

/-- C7 witness: 8 aligned bytes become one word; bit 9 is bit 1 of byte 1. -/
theorem C7_from_bytes_witness :
    from_bytes 64 ⟨[1, 2, 0, 0, 0, 0, 0, 0], 0⟩ = none ↔
      ¬((0 : Nat) = 0 ∧ ([1, 2, 0, 0, 0, 0, 0, 0] : List Nat).length % 8 = 0) :=
  (C7_from_bytes 64 ⟨[1, 2, 0, 0, 0, 0, 0, 0], 0⟩ (by decide)).1


/-! ### DacsByte (`dacs_byte.rs`) -/

/-- Compressed integer sequence with byte-level Directly Addressable Codes
(`DacsByte`): per-level byte arrays plus per-level continuation flags. -/
structure DacsByte where
  data : List (List Nat)
  flags : List BitVectorData
deriving Repr, DecidableEq

/-- Default empty sequence (`DacsByte::default`): a single empty level. -/
def DacsByte.dflt : DacsByte := ⟨[[]], []⟩

/-- Number of integers stored (`DacsByte::len`). -/
def DacsByte.len (s : DacsByte) : Nat := (s.data.getD 0 []).length

/-- Number of levels (`DacsByte::num_levels`). -/
def DacsByte.num_levels (s : DacsByte) : Nat := s.data.length

/-- Modelled from the spec: the flag vectors carry a `Rank9SelIndex`, whose
implementation file `rank9sel/inner.rs` is absent from the sources.  Per
spec section 8, "Rank9SelIndex and NoIndex agree on every query", so its
`rank1` is modelled by the linear-scan `rank1` of `NoIndex`. -/
def flagRank1 (d : BitVectorData) (pos : Nat) : Option Nat :=
  rank1 d pos

/-- Inner per-value loop of `DacsByte::from_slice`: starting at level `j`
with the remaining value, append the low byte to `data[j]` and a
continuation flag to `flags[j]` while higher bytes remain.  The fuel only
makes the recursion structural; callers pass `num_levels`. -/
def pushValGo (num_levels : Nat) :
    Nat → Nat → Nat → List (List Nat) → List BitVectorBuilder →
      List (List Nat) × List BitVectorBuilder
  | 0, _, _, data, flags => (data, flags)
  | fuel + 1, j, x, data, flags =>
    let data2 := data.set j (data.getD j [] ++ [x &&& 255])
    let x2 := x >>> 8
    if j = num_levels - 1 then (data2, flags)
    else if x2 = 0 then
      (data2, flags.set j (push_bit (flags.getD j BitVectorBuilder.new) false))
    else
      pushValGo num_levels fuel (j + 1) x2 data2
        (flags.set j (push_bit (flags.getD j BitVectorBuilder.new) true))

/-- Builds byte-level DACs from a slice (`DacsByte::from_slice`).  In the
single-level branch the `u8::try_from(x).unwrap()` conversion is the
identity because every value is below 256 there. -/
def from_slice_dacs (vals : List Nat) : Option DacsByte :=
  if vals.isEmpty then some DacsByte.dflt
  else
    let maxv := vals.foldl (fun a x => max a x) 0
    let num_bits := needed_bits maxv
    let num_levels := ceiled_divide num_bits 8
    if num_levels = 1 then some ⟨[vals], []⟩
    else
      let st := vals.foldl
        (fun st x => pushValGo num_levels num_levels 0 x st.1 st.2)
        (List.replicate num_levels [],
          List.replicate (num_levels - 1) BitVectorBuilder.new)
      some ⟨st.1, st.2.map into_data⟩

/-- Level walk of `DacsByte::access`, with fuel `num_levels - j`. -/
def accessGo (s : DacsByte) : Nat → Nat → Nat → Nat → Nat
  | 0, _, _, x => x
  | fuel + 1, j, pos, x =>
    let x2 := x ||| ((s.data.getD j []).getD pos 0) <<< (j * 8)
    if j = s.num_levels - 1 then x2
    else if ! ((s.flags.getD j (into_data BitVectorBuilder.new)).access pos).getD false
    then x2
    else accessGo s fuel (j + 1)
      ((flagRank1 (s.flags.getD j (into_data BitVectorBuilder.new)) pos).getD 0) x2

/-- Random access (`impl Access for DacsByte`). -/
def DacsByte.access (s : DacsByte) (pos : Nat) : Option Nat :=
  if s.len ≤ pos then none
  else some (accessGo s s.num_levels 0 pos 0)

/-- All integers in order (`DacsByte::iter`). -/
def dacsToVec (s : DacsByte) : List Nat :=
  (List.range s.len).map (fun p => (s.access p).getD 0)

/-! ### Level decomposition used to verify DacsByte -/

/-- Does value `x` occupy a slot at level `j`?  (Level 0 always; higher
levels exactly when bytes at or above level `j` remain.) -/
def reachb (x j : Nat) : Bool := decide (j = 0) || decide (x >>> (8 * j) ≠ 0)

/-- Values of the input that occupy a slot at level `j`, in order. -/
def levelList (vals : List Nat) (j : Nat) : List Nat :=
  vals.filter (fun x => reachb x j)

/-- Level `j` byte array contents. -/
def dataLevel (vals : List Nat) (j : Nat) : List Nat :=
  (levelList vals j).map (fun x => (x >>> (8 * j)) &&& 255)

/-- Level `j` continuation flags. -/
def flagLevel (vals : List Nat) (j : Nat) : List Bool :=
  (levelList vals j).map (fun x => decide (x >>> (8 * (j + 1)) ≠ 0))

theorem pushValGo_succ (L fuel j x : Nat) (data : List (List Nat))
    (flags : List BitVectorBuilder) :
    pushValGo L (fuel + 1) j x data flags =
      if j = L - 1 then (data.set j (data.getD j [] ++ [x &&& 255]), flags)
      else if x >>> 8 = 0 then
        (data.set j (data.getD j [] ++ [x &&& 255]),
          flags.set j (push_bit (flags.getD j BitVectorBuilder.new) false))
      else
        pushValGo L fuel (j + 1) (x >>> 8)
          (data.set j (data.getD j [] ++ [x &&& 255]))
          (flags.set j (push_bit (flags.getD j BitVectorBuilder.new) true)) := by
  simp only [pushValGo]

theorem accessGo_succ (s : DacsByte) (fuel j pos x : Nat) :
    accessGo s (fuel + 1) j pos x =
      (if j = s.num_levels - 1 then
        x ||| ((s.data.getD j []).getD pos 0) <<< (j * 8)
      else if ! ((s.flags.getD j (into_data BitVectorBuilder.new)).access pos).getD false
      then x ||| ((s.data.getD j []).getD pos 0) <<< (j * 8)
      else accessGo s fuel (j + 1)
        ((flagRank1 (s.flags.getD j (into_data BitVectorBuilder.new)) pos).getD 0)
        (x ||| ((s.data.getD j []).getD pos 0) <<< (j * 8))) := by
  simp only [accessGo]

theorem getD_set_self (l : List α) (i : Nat) (a d : α) (h : i < l.length) :
    (l.set i a).getD i d = a := by
  rw [List.getD_eq_getElem?_getD, List.getElem?_set_self h]
  rfl

theorem getD_set_ne (l : List α) (i j : Nat) (a d : α) (h : i ≠ j) :
    (l.set i a).getD j d = l.getD j d := by
  rw [List.getD_eq_getElem?_getD, List.getElem?_set_ne h,
    ← List.getD_eq_getElem?_getD]

theorem getD_replicate_self (n i : Nat) (a : α) (h : i < n) :
    (List.replicate n a).getD i a = a := by
  rw [List.getD_eq_getElem?_getD,
    List.getElem?_eq_getElem (by simpa using h), List.getElem_replicate]
  rfl

theorem getD_map_zero (l : List Nat) (f : Nat → Nat) (i : Nat) (h : i < l.length) :
    (l.map f).getD i 0 = f (l.getD i 0) := by
  rw [List.getD_eq_getElem?_getD, List.getD_eq_getElem?_getD,
    List.getElem?_eq_getElem (by simpa using h), List.getElem?_eq_getElem h,
    List.getElem_map]
  rfl

theorem getD_map_bool (l : List Nat) (f : Nat → Bool) (i : Nat) (h : i < l.length) :
    (l.map f).getD i false = f (l.getD i 0) := by
  rw [List.getD_eq_getElem?_getD, List.getD_eq_getElem?_getD,
    List.getElem?_eq_getElem (by simpa using h), List.getElem?_eq_getElem h,
    List.getElem_map]
  rfl

theorem shiftRight_shiftRight (x m n : Nat) : (x >>> m) >>> n = x >>> (m + n) :=
  (Nat.shiftRight_add x m n).symm

theorem reachb_of_higher (x j j2 : Nat) (hj : j ≤ j2) (h : x >>> (8 * j2) ≠ 0) :
    x >>> (8 * j) ≠ 0 := by
  intro h0
  apply h
  rw [show 8 * j2 = 8 * j + (8 * j2 - 8 * j) by omega, Nat.shiftRight_add, h0,
    Nat.shiftRight_eq_div_pow]
  exact Nat.zero_div _


theorem levelList_append_one (vals : List Nat) (x : Nat) (j : Nat) :
    levelList (vals ++ [x]) j =
      levelList vals j ++ (if reachb x j then [x] else []) := by
  unfold levelList
  rw [List.filter_append]
  congr 1
  by_cases h : reachb x j <;> simp [h]

theorem reachb_zero (x : Nat) : reachb x 0 = true := by
  simp [reachb]

theorem levelList_zero (vals : List Nat) : levelList vals 0 = vals := by
  unfold levelList
  apply List.filter_eq_self.mpr
  intro a _
  exact reachb_zero a

/-- Invariant of the `from_slice` fold: after the values `P` have been
processed, level `j` holds `dataLevel P j` and the flag builders hold
`flagLevel P j`. -/
def DState (L : Nat) (P : List Nat) (st : List (List Nat) × List BitVectorBuilder) :
    Prop :=
  st.1.length = L ∧ st.2.length = L - 1 ∧
  (∀ j, j < L → st.1.getD j [] = dataLevel P j) ∧
  (∀ j, j < L - 1 →
    st.2.getD j BitVectorBuilder.new = extend_bits BitVectorBuilder.new (flagLevel P j))

theorem pushValGo_spec (L : Nat) :
    ∀ (fuel j x0 : Nat) (data : List (List Nat)) (flags : List BitVectorBuilder),
      j < L → fuel = L - j → (j = 0 ∨ x0 >>> (8 * j) ≠ 0) →
      data.length = L → flags.length = L - 1 →
      (pushValGo L fuel j (x0 >>> (8 * j)) data flags).1.length = L ∧
      (pushValGo L fuel j (x0 >>> (8 * j)) data flags).2.length = L - 1 ∧
      (∀ j2, j2 < L →
        (pushValGo L fuel j (x0 >>> (8 * j)) data flags).1.getD j2 [] =
          if j ≤ j2 ∧ reachb x0 j2 then
            data.getD j2 [] ++ [(x0 >>> (8 * j2)) &&& 255]
          else data.getD j2 []) ∧
      (∀ j2, j2 < L - 1 →
        (pushValGo L fuel j (x0 >>> (8 * j)) data flags).2.getD j2
            BitVectorBuilder.new =
          if j ≤ j2 ∧ reachb x0 j2 then
            push_bit (flags.getD j2 BitVectorBuilder.new)
              (decide (x0 >>> (8 * (j2 + 1)) ≠ 0))
          else flags.getD j2 BitVectorBuilder.new) := by
  intro fuel
  induction fuel with
  | zero =>
    intro j x0 data flags hj hfuel _ _ _
    omega
  | succ fuel ih =>
    intro j x0 data flags hj hfuel hreach hdlen hflen
    have hreachj : reachb x0 j = true := by
      unfold reachb
      rcases hreach with h | h <;> simp [h]
    have hx2 : (x0 >>> (8 * j)) >>> 8 = x0 >>> (8 * (j + 1)) := by
      rw [shiftRight_shiftRight]
      congr 1
    rw [pushValGo_succ]
    by_cases hlast : j = L - 1
    · rw [if_pos hlast]
      refine ⟨by simpa using hdlen, hflen, ?_, ?_⟩
      · intro j2 hj2
        by_cases hje : j2 = j
        · subst hje
          rw [getD_set_self _ _ _ _ (by omega), if_pos ⟨le_refl _, hreachj⟩]
        · have hj2lt : j2 < j := by omega
          rw [getD_set_ne _ _ _ _ _ (by omega), if_neg (by
            intro hcon
            omega)]
      · intro j2 hj2
        rw [if_neg (by
          intro hcon
          omega)]
    · rw [if_neg hlast]
      have hjlt : j < L - 1 := by omega
      by_cases hz : (x0 >>> (8 * j)) >>> 8 = 0
      · rw [if_pos hz]
        rw [hx2] at hz
        refine ⟨by simpa using hdlen, by simpa using hflen, ?_, ?_⟩
        · intro j2 hj2
          by_cases hje : j2 = j
          · subst hje
            rw [getD_set_self _ _ _ _ (by omega), if_pos ⟨le_refl _, hreachj⟩]
          · rw [getD_set_ne _ _ _ _ _ (by omega)]
            by_cases hj2lt : j2 < j
            · rw [if_neg (by intro hcon; omega)]
            · have hgt : j + 1 ≤ j2 := by omega
              have hnr : reachb x0 j2 = false := by
                unfold reachb
                have : x0 >>> (8 * j2) = 0 := by
                  by_contra hcon
                  exact absurd (reachb_of_higher x0 (j + 1) j2 hgt hcon) (by simpa using hz)
                simp [this]
                omega
              rw [if_neg (by
                intro hcon
                rw [hnr] at hcon
                exact Bool.noConfusion hcon.2)]
        · intro j2 hj2
          by_cases hje : j2 = j
          · subst hje
            rw [getD_set_self _ _ _ _ (by omega),
              if_pos ⟨le_refl _, hreachj⟩]
            congr 1
            simp [hz]
          · rw [getD_set_ne _ _ _ _ _ (by omega)]
            by_cases hj2lt : j2 < j
            · rw [if_neg (by intro hcon; omega)]
            · have hgt : j + 1 ≤ j2 := by omega
              have hnr : reachb x0 j2 = false := by
                unfold reachb
                have : x0 >>> (8 * j2) = 0 := by
                  by_contra hcon
                  exact absurd (reachb_of_higher x0 (j + 1) j2 hgt hcon) (by simpa using hz)
                simp [this]
                omega
              rw [if_neg (by
                intro hcon
                rw [hnr] at hcon
                exact Bool.noConfusion hcon.2)]
      · rw [if_neg hz]
        rw [hx2] at hz
        have hrec := ih (j + 1) x0
          (data.set j (data.getD j [] ++ [x0 >>> (8 * j) &&& 255]))
          (flags.set j (push_bit (flags.getD j BitVectorBuilder.new) true))
          (by omega) (by omega) (Or.inr hz) (by simpa using hdlen)
          (by simpa using hflen)
        rw [hx2]
        obtain ⟨hr1, hr2, hr3, hr4⟩ := hrec
        refine ⟨hr1, hr2, ?_, ?_⟩
        · intro j2 hj2
          rw [hr3 j2 hj2]
          by_cases hje : j2 = j
          · subst hje
            rw [if_neg (by intro hcon; omega), if_pos ⟨le_refl _, hreachj⟩,
              getD_set_self _ _ _ _ (by omega)]
          · by_cases hj2lt : j2 < j
            · rw [if_neg (by intro hcon; omega), if_neg (by intro hcon; omega),
                getD_set_ne _ _ _ _ _ (by omega)]
            · have hgt : j + 1 ≤ j2 := by omega
              rw [getD_set_ne _ _ _ _ _ (by omega)]
              by_cases hcond : reachb x0 j2 = true
              · rw [if_pos ⟨by omega, hcond⟩, if_pos ⟨by omega, hcond⟩]
              · rw [if_neg (by intro hcon; exact hcond hcon.2),
                  if_neg (by intro hcon; exact hcond hcon.2)]
        · intro j2 hj2
          rw [hr4 j2 hj2]
          by_cases hje : j2 = j
          · subst hje
            rw [if_neg (by intro hcon; omega), if_pos ⟨le_refl _, hreachj⟩,
              getD_set_self _ _ _ _ (by omega)]
            congr 1
            simp [hz]
          · by_cases hj2lt : j2 < j
            · rw [if_neg (by intro hcon; omega), if_neg (by intro hcon; omega),
                getD_set_ne _ _ _ _ _ (by omega)]
            · have hgt : j + 1 ≤ j2 := by omega
              rw [getD_set_ne _ _ _ _ _ (by omega)]
              by_cases hcond : reachb x0 j2 = true
              · rw [if_pos ⟨by omega, hcond⟩, if_pos ⟨by omega, hcond⟩]
              · rw [if_neg (by intro hcon; exact hcond hcon.2),
                  if_neg (by intro hcon; exact hcond hcon.2)]


theorem dataLevel_append_one (vals : List Nat) (x j : Nat) :
    dataLevel (vals ++ [x]) j =
      dataLevel vals j ++
        (if reachb x j then [(x >>> (8 * j)) &&& 255] else []) := by
  unfold dataLevel
  rw [levelList_append_one, List.map_append]
  congr 1
  by_cases h : reachb x j <;> simp [h]

theorem flagLevel_append_one (vals : List Nat) (x j : Nat) :
    flagLevel (vals ++ [x]) j =
      flagLevel vals j ++
        (if reachb x j then [decide (x >>> (8 * (j + 1)) ≠ 0)] else []) := by
  unfold flagLevel
  rw [levelList_append_one, List.map_append]
  congr 1
  by_cases h : reachb x j <;> simp [h]

theorem DState_step (L : Nat) (hL : 1 ≤ L) (P : List Nat) (x : Nat)
    (st : List (List Nat) × List BitVectorBuilder) (hst : DState L P st) :
    DState L (P ++ [x]) (pushValGo L L 0 x st.1 st.2) := by
  obtain ⟨hd, hf, hdata, hflag⟩ := hst
  have hx0 : x = x >>> (8 * 0) := by simp
  have hmain := pushValGo_spec L L 0 x st.1 st.2 (by omega) (by omega)
    (Or.inl rfl) hd hf
  rw [← hx0] at hmain
  obtain ⟨h1, h2, h3, h4⟩ := hmain
  refine ⟨h1, h2, ?_, ?_⟩
  · intro j hj
    rw [h3 j hj, hdata j hj, dataLevel_append_one]
    by_cases hr : reachb x j
    · rw [if_pos ⟨by omega, hr⟩, if_pos hr]
    · rw [if_neg (by intro hcon; exact hr hcon.2), if_neg hr]
      simp
  · intro j hj
    rw [h4 j hj, hflag j hj, flagLevel_append_one]
    by_cases hr : reachb x j
    · rw [if_pos ⟨by omega, hr⟩, if_pos hr]
      show push_bit (extend_bits BitVectorBuilder.new (flagLevel P j)) _ =
        extend_bits BitVectorBuilder.new
          (flagLevel P j ++ [decide (x >>> (8 * (j + 1)) ≠ 0)])
      unfold extend_bits
      rw [List.foldl_append]
      rfl
    · rw [if_neg (by intro hcon; exact hr hcon.2), if_neg hr]
      simp

theorem DState_init (L : Nat) :
    DState L []
      (List.replicate L [], List.replicate (L - 1) BitVectorBuilder.new) := by
  refine ⟨by simp, by simp, ?_, ?_⟩
  · intro j hj
    show (List.replicate L ([] : List Nat)).getD j [] = dataLevel [] j
    rw [getD_replicate_self L j [] hj]
    rfl
  · intro j hj
    show (List.replicate (L - 1) BitVectorBuilder.new).getD j BitVectorBuilder.new =
      extend_bits BitVectorBuilder.new (flagLevel [] j)
    rw [getD_replicate_self (L - 1) j BitVectorBuilder.new hj]
    rfl

theorem DState_fold (L : Nat) (hL : 1 ≤ L) :
    ∀ (Q P : List Nat) (st : List (List Nat) × List BitVectorBuilder),
      DState L P st →
      DState L (P ++ Q)
        (Q.foldl (fun st x => pushValGo L L 0 x st.1 st.2) st) := by
  intro Q
  induction Q with
  | nil =>
    intro P st hst
    simpa using hst
  | cons x rest ih =>
    intro P st hst
    have hstep := DState_step L hL P x st hst
    have := ih (P ++ [x]) _ hstep
    rw [List.foldl_cons]
    rw [show P ++ x :: rest = (P ++ [x]) ++ rest by simp]
    exact this


theorem countP_range_getD (l : List Nat) (B : Nat → Bool) :
    ∀ i, i ≤ l.length →
      (List.range i).countP (fun t => B (l.getD t 0)) = (l.take i).countP B := by
  intro i
  induction i with
  | zero => intro _; simp
  | succ i ih =>
    intro h
    have hi : i < l.length := by omega
    rw [List.range_succ, List.countP_append, ih (by omega), List.take_succ,
      List.getElem?_eq_getElem hi, List.countP_append]
    have hgetD : l.getD i 0 = l[i] := by
      rw [List.getD_eq_getElem?_getD, List.getElem?_eq_getElem hi]
      rfl
    simp only [List.countP_cons, List.countP_nil, Option.toList_some]
    rw [hgetD]

theorem filter_getD_index (B : Nat → Bool) :
    ∀ (l : List Nat) (i : Nat), i < l.length → B (l.getD i 0) = true →
      (l.take i).countP B < (l.filter B).length ∧
      (l.filter B).getD ((l.take i).countP B) 0 = l.getD i 0 := by
  intro l
  induction l with
  | nil =>
    intro i hi
    simp at hi
  | cons a rest ih =>
    intro i hi hB
    cases i with
    | zero =>
      have hBa : B a = true := hB
      rw [List.filter_cons_of_pos hBa]
      constructor
      · simp
      · simp
    | succ i =>
      have hBr : B (rest.getD i 0) = true := hB
      obtain ⟨hlt, hval⟩ := ih i (by simpa using hi) hBr
      rw [List.take_succ_cons]
      by_cases hBa : B a = true
      · rw [List.filter_cons_of_pos hBa]
        constructor
        · simp only [List.countP_cons, hBa, if_true, List.length_cons]
          omega
        · simp only [List.countP_cons, hBa, if_true]
          show (a :: rest.filter B).getD (rest.take i |>.countP B).succ 0 = _
          rw [List.getD_cons_succ]
          exact hval
      · rw [List.filter_cons_of_neg (by simpa using hBa)]
        simp only [List.countP_cons, hBa, if_false]
        simp only [Nat.add_zero, List.getD_cons_succ]
        exact ⟨hlt, hval⟩

theorem levelList_succ (vals : List Nat) (j : Nat) :
    levelList vals (j + 1) =
      (levelList vals j).filter (fun x => decide (x >>> (8 * (j + 1)) ≠ 0)) := by
  unfold levelList
  rw [List.filter_filter]
  apply List.filter_congr
  intro a _
  unfold reachb
  by_cases h : a >>> (8 * (j + 1)) = 0
  · simp [h]
  · have hj : a >>> (8 * j) ≠ 0 := reachb_of_higher a j (j + 1) (by omega) h
    simp [h, hj]

theorem acc_or_byte (v j : Nat) :
    (v % 2 ^ (8 * j)) ||| (((v >>> (8 * j)) &&& 255) <<< (j * 8)) =
      v % 2 ^ (8 * (j + 1)) := by
  apply Nat.eq_of_testBit_eq
  intro i
  have h255 : (255 : Nat) = 2 ^ 8 - 1 := by norm_num
  rw [Nat.testBit_or, Nat.testBit_mod_two_pow, Nat.testBit_shiftLeft,
    Nat.testBit_and, Nat.testBit_shiftRight, Nat.testBit_mod_two_pow, h255,
    Nat.testBit_two_pow_sub_one]
  by_cases h1 : i < 8 * j
  · have h2 : ¬(j * 8 ≤ i) := by omega
    simp [h1, h2, show i < 8 * (j + 1) by omega]
  · by_cases h2 : i < 8 * (j + 1)
    · have hge : j * 8 ≤ i := by omega
      have hlt8 : i - j * 8 < 8 := by omega
      have harg : 8 * j + (i - j * 8) = i := by omega
      simp [h1, h2, hge, hlt8, harg]
    · have hnb : ¬(i - j * 8 < 8) := by omega
      simp [h1, h2, hnb]

theorem lt_of_shiftRight_eq_zero (v m : Nat) (h : v >>> m = 0) : v < 2 ^ m := by
  rw [Nat.shiftRight_eq_div_pow] at h
  by_contra hcon
  push_neg at hcon
  have : 1 ≤ v / 2 ^ m := (Nat.one_le_div_iff (by positivity)).mpr hcon
  omega

theorem accessGo_spec (s : DacsByte) (vals : List Nat) (L : Nat)
    (hnum : s.num_levels = L) (hL : 1 ≤ L)
    (hdata : ∀ j, j < L → s.data.getD j [] = dataLevel vals j)
    (hflags : ∀ j, j < L - 1 →
      s.flags.getD j (into_data BitVectorBuilder.new) = from_bits (flagLevel vals j)) :
    ∀ (fuel j pos v : Nat), fuel = L - j → j < L → v < 2 ^ (8 * L) →
      pos < (levelList vals j).length →
      (levelList vals j).getD pos 0 = v →
      accessGo s fuel j pos (v % 2 ^ (8 * j)) = v := by
  intro fuel
  induction fuel with
  | zero =>
    intro j pos v hfuel hj _ _ _
    omega
  | succ fuel ih =>
    intro j pos v hfuel hj hv hpos hval
    rw [accessGo_succ]
    have hbyte : (s.data.getD j []).getD pos 0 = (v >>> (8 * j)) &&& 255 := by
      rw [hdata j hj]
      unfold dataLevel
      rw [getD_map_zero _ _ pos hpos, hval]
    have hacc : v % 2 ^ (8 * j) ||| (s.data.getD j []).getD pos 0 <<< (j * 8) =
        v % 2 ^ (8 * (j + 1)) := by
      rw [hbyte, acc_or_byte]
    by_cases hlast : j = s.num_levels - 1
    · rw [if_pos hlast, hacc, show 8 * (j + 1) = 8 * L by omega]
      exact Nat.mod_eq_of_lt hv
    · rw [if_neg hlast]
      have hjL : j < L - 1 := by omega
      have hflag := hflags j hjL
      obtain ⟨hfl_len, hfl_wf, hfl_tz, hfl_bits, hfl_tail⟩ :=
        from_bits_spec (flagLevel vals j)
      have hlenflag : (flagLevel vals j).length = (levelList vals j).length := by
        unfold flagLevel
        simp
      have haccval :
          ((s.flags.getD j (into_data BitVectorBuilder.new)).access pos).getD false
            = decide (v >>> (8 * (j + 1)) ≠ 0) := by
        rw [hflag, access_eq_bitAt _ pos (by rw [hfl_len]; omega)]
        show bitAtWords (from_bits (flagLevel vals j)).words pos = _
        rw [hfl_bits pos (by omega)]
        unfold flagLevel
        rw [getD_map_bool _ _ pos hpos, hval]
      rw [haccval]
      by_cases hzero : v >>> (8 * (j + 1)) = 0
      · rw [if_pos (by simp [hzero]), hacc]
        exact Nat.mod_eq_of_lt (lt_of_shiftRight_eq_zero v _ hzero)
      · rw [if_neg (by simp [hzero])]
        have hBv : (fun x => decide (x >>> (8 * (j + 1)) ≠ 0)) ((levelList vals j).getD pos 0)
            = true := by
          rw [hval]
          simp [hzero]
        obtain ⟨hcnt_lt, hcnt_val⟩ :=
          filter_getD_index (fun x => decide (x >>> (8 * (j + 1)) ≠ 0))
            (levelList vals j) pos hpos hBv
        have hlevel := levelList_succ vals j
        have hrank :
            (flagRank1 (s.flags.getD j (into_data BitVectorBuilder.new)) pos).getD 0
              = ((levelList vals j).take pos).countP
                  (fun x => decide (x >>> (8 * (j + 1)) ≠ 0)) := by
          unfold flagRank1
          rw [hflag, rank1_eq_countBelow _ hfl_wf.2 pos (by rw [hfl_len]; omega)]
          show countBelow (from_bits (flagLevel vals j)).words pos = _
          rw [countBelow_from_bits _ pos (by omega)]
          rw [← countP_range_getD (levelList vals j)
            (fun x => decide (x >>> (8 * (j + 1)) ≠ 0)) pos (by omega)]
          apply List.countP_congr
          intro t htmem
          have ht := List.mem_range.mp htmem
          unfold flagLevel
          rw [getD_map_bool _ _ t (by omega)]
      
        rw [hrank, hacc]
        exact ih (j + 1) _ v (by omega) (by omega) hv
          (by rw [hlevel]; exact hcnt_lt)
          (by rw [hlevel, hcnt_val, hval])

theorem getD_map_into (l : List BitVectorBuilder) (i : Nat) (h : i < l.length) :
    (l.map into_data).getD i (into_data BitVectorBuilder.new) =
      into_data (l.getD i BitVectorBuilder.new) := by
  rw [List.getD_eq_getElem?_getD, List.getD_eq_getElem?_getD,
    List.getElem?_eq_getElem (by simpa using h), List.getElem?_eq_getElem h,
    List.getElem_map]
  rfl

/-- C9: `DacsByte::from_slice` succeeds on every slice of `usize` values and
round-trips: the length matches, `access(p)` reassembles `v[p]` by or-ing
the per-level bytes shifted by `8j`, walking levels through the
continuation flags and `rank1`, and the iterator yields exactly the
input. -/
theorem C9_dacs (vals : List Nat) (hvals : ∀ v ∈ vals, v < 2 ^ 64) :
    ∃ s : DacsByte, from_slice_dacs vals = some s ∧
      s.len = vals.length ∧
      (∀ p, p < vals.length → s.access p = some (vals.getD p 0)) ∧
      dacsToVec s = vals := by
  have htv : ∀ (s : DacsByte), s.len = vals.length →
      (∀ p, p < vals.length → s.access p = some (vals.getD p 0)) →
      dacsToVec s = vals := by
    intro s hlen hacc
    unfold dacsToVec
    rw [hlen]
    apply List.ext_getElem
    · simp
    · intro i h1 h2
      simp only [List.getElem_map, List.getElem_range]
      rw [hacc i h2, Option.getD_some, List.getD_eq_getElem?_getD,
        List.getElem?_eq_getElem h2]
      rfl
  by_cases hnil : vals = []
  · subst hnil
    refine ⟨DacsByte.dflt, rfl, rfl, ?_, ?_⟩
    · intro p hp
      simp at hp
    · exact htv DacsByte.dflt rfl (fun p hp => by simp at hp)
  · have hie : vals.isEmpty = false := by
      cases vals with
      | nil => exact absurd rfl hnil
      | cons a l => rfl
    have hred : from_slice_dacs vals =
        (if ceiled_divide (needed_bits (vals.foldl (fun a x => max a x) 0)) 8 = 1 then
          some (⟨[vals], []⟩ : DacsByte)
        else
          some ⟨(vals.foldl
              (fun st x =>
                pushValGo (ceiled_divide (needed_bits (vals.foldl (fun a x => max a x) 0)) 8)
                  (ceiled_divide (needed_bits (vals.foldl (fun a x => max a x) 0)) 8)
                  0 x st.1 st.2)
              (List.replicate
                  (ceiled_divide (needed_bits (vals.foldl (fun a x => max a x) 0)) 8) [],
                List.replicate
                  (ceiled_divide (needed_bits (vals.foldl (fun a x => max a x) 0)) 8 - 1)
                  BitVectorBuilder.new)).1,
            (vals.foldl
              (fun st x =>
                pushValGo (ceiled_divide (needed_bits (vals.foldl (fun a x => max a x) 0)) 8)
                  (ceiled_divide (needed_bits (vals.foldl (fun a x => max a x) 0)) 8)
                  0 x st.1 st.2)
              (List.replicate
                  (ceiled_divide (needed_bits (vals.foldl (fun a x => max a x) 0)) 8) [],
                List.replicate
                  (ceiled_divide (needed_bits (vals.foldl (fun a x => max a x) 0)) 8 - 1)
                  BitVectorBuilder.new)).2.map into_data⟩) := by
      unfold from_slice_dacs
      rw [hie]
      rfl
    rw [hred]
    set M := vals.foldl (fun a x => max a x) 0 with hMdef
    set L := ceiled_divide (needed_bits M) 8 with hLdef
    have hL1 : 1 ≤ L := by
      rw [hLdef]
      unfold ceiled_divide
      have := needed_bits_pos M
      omega
    have hnble : needed_bits M ≤ 8 * L := by
      rw [hLdef]
      unfold ceiled_divide
      omega
    have hvbound : ∀ p, p < vals.length → vals.getD p 0 < 2 ^ (8 * L) := by
      intro p hp
      have hmem : vals.getD p 0 ∈ vals := by
        rw [List.getD_eq_getElem?_getD, List.getElem?_eq_getElem hp, Option.getD_some]
        exact List.getElem_mem hp
      have h1 : vals.getD p 0 ≤ vals.foldl (fun u x => max u x) 0 :=
        (foldl_max_ge vals 0).2 _ hmem
      rw [← hMdef] at h1
      have h2 : M < 2 ^ needed_bits M := lt_two_pow_needed_bits M
      have h3 : (2 : Nat) ^ needed_bits M ≤ 2 ^ (8 * L) :=
        Nat.pow_le_pow_right (by omega) hnble
      omega
    by_cases hL1e : L = 1
    · rw [if_pos hL1e]
      have hacc : ∀ p, p < vals.length →
          DacsByte.access ⟨[vals], []⟩ p = some (vals.getD p 0) := by
        intro p hp
        have hlen : DacsByte.len ⟨[vals], []⟩ = vals.length := rfl
        have hnle : ¬ DacsByte.len (⟨[vals], []⟩ : DacsByte) ≤ p := by
          rw [hlen]
          omega
        have hnum : DacsByte.num_levels ⟨[vals], []⟩ = 1 := rfl
        have hstep : accessGo ⟨[vals], []⟩ 1 0 p 0 = vals.getD p 0 := by
          rw [accessGo_succ,
            if_pos (show (0 : Nat) = DacsByte.num_levels ⟨[vals], []⟩ - 1 from rfl)]
          show 0 ||| (vals.getD p 0) <<< (0 * 8) = vals.getD p 0
          simp
        unfold DacsByte.access
        rw [if_neg hnle, hnum, hstep]
      exact ⟨⟨[vals], []⟩, rfl, rfl, hacc, htv ⟨[vals], []⟩ rfl hacc⟩
    · rw [if_neg hL1e]
      set st := vals.foldl (fun st x => pushValGo L L 0 x st.1 st.2)
        (List.replicate L [], List.replicate (L - 1) BitVectorBuilder.new) with hstdef
      have hDS : DState L vals st := by
        rw [hstdef]
        have hfold := DState_fold L (by omega) vals []
          (List.replicate L [], List.replicate (L - 1) BitVectorBuilder.new)
          (DState_init L)
        simpa using hfold
      obtain ⟨hd1, hd2, hdataP, hflagP⟩ := hDS
      have hnum : DacsByte.num_levels ⟨st.1, st.2.map into_data⟩ = L := hd1
      have hlen : DacsByte.len ⟨st.1, st.2.map into_data⟩ = vals.length := by
        show (st.1.getD 0 []).length = vals.length
        rw [hdataP 0 (by omega)]
        unfold dataLevel
        rw [List.length_map, levelList_zero]
      have hdata2 : ∀ j, j < L →
          (⟨st.1, st.2.map into_data⟩ : DacsByte).data.getD j [] = dataLevel vals j := by
        intro j hj
        exact hdataP j hj
      have hflags2 : ∀ j, j < L - 1 →
          (⟨st.1, st.2.map into_data⟩ : DacsByte).flags.getD j
              (into_data BitVectorBuilder.new) = from_bits (flagLevel vals j) := by
        intro j hj
        show (st.2.map into_data).getD j (into_data BitVectorBuilder.new) = _
        rw [getD_map_into st.2 j (by omega), hflagP j hj]
        rfl
      have hacc : ∀ p, p < vals.length →
          DacsByte.access ⟨st.1, st.2.map into_data⟩ p = some (vals.getD p 0) := by
        intro p hp
        have hnle : ¬ DacsByte.len (⟨st.1, st.2.map into_data⟩ : DacsByte) ≤ p := by
          rw [hlen]
          omega
        have hmain := accessGo_spec ⟨st.1, st.2.map into_data⟩ vals L hnum (by omega)
          hdata2 hflags2 L 0 p (vals.getD p 0) (by omega) (by omega)
          (hvbound p hp) (by rw [levelList_zero]; exact hp)
          (by rw [levelList_zero])
        rw [show (vals.getD p 0) % 2 ^ (8 * 0) = 0 by simp [Nat.mod_one]] at hmain
        unfold DacsByte.access
        rw [if_neg hnle, hnum, hmain]
      exact ⟨⟨st.1, st.2.map into_data⟩, rfl, hlen, hacc,
        htv ⟨st.1, st.2.map into_data⟩ hlen hacc⟩

/-- Witness for C9: the three-level input `[65536, 255, 16, 1048576, 0]`
satisfies the `usize` bound and round-trips. -/
theorem C9_dacs_witness :
    (∀ v ∈ ([65536, 255, 16, 1048576, 0] : List Nat), v < 2 ^ 64) ∧
    (∃ s : DacsByte,
      from_slice_dacs [65536, 255, 16, 1048576, 0] = some s ∧
      s.len = ([65536, 255, 16, 1048576, 0] : List Nat).length ∧
      (∀ p, p < ([65536, 255, 16, 1048576, 0] : List Nat).length →
        s.access p = some (([65536, 255, 16, 1048576, 0] : List Nat).getD p 0)) ∧
      dacsToVec s = [65536, 255, 16, 1048576, 0]) :=
  ⟨by decide, C9_dacs [65536, 255, 16, 1048576, 0] (by decide)⟩

end Jerky
